import Mathlib

/-!
Verification of the workflow-graph core of the PlanetAiAssignment repository
(backend/app/workflow/validator.py, backend/app/workflow/executor.py,
backend/app/components/__init__.py, backend/app/components/llm_engine.py).

The Python code is shallowly embedded: nodes and edges are records, Python
dicts of strings are association lists (first binding wins, as Python dict
keys are unique), Python sets are lists used only through membership, and
the two graph traversals (recursive DFS cycle detection and Kahn's
algorithm) are embedded with explicit fuel; lemmas below prove the chosen
fuel is always sufficient, so the fuel-exhaustion branches are unreachable
and the embedding computes exactly what the Python loops compute.

Modelling conventions, noted where they matter:
* `String.map Char.toLower` models Python `str.lower` (all type names in
  the program are ASCII).
* Python `str(dict)` is modelled by `pyStrDict` (the `\x7b'k': 'v'\x7d`
  rendering for string-valued dicts; value repr-escaping is not modelled,
  no claim depends on it).
* Python slicing `[:200]` is `pyTake · 200` (by characters).
* Wall-clock timestamps in log entries are not modelled (no claim
  mentions them).
* In `get_execution_order` and `_check_for_cycles` the Python code indexes
  `graph[edge["source"]]` / `in_degree[edge["target"]]` directly, raising
  `KeyError` when an edge endpoint is not a declared node id.  The
  embedding is total; every theorem about these functions carries the
  endpoint-closure hypothesis `EdgesClosed`, which is exactly the state of
  affairs in which the Python code reaches them (they run after
  `_validate_connections`).
-/

deriving instance DecidableEq for Except

namespace PlanetAI

/-- A Python dict with string keys and string values, as an association
list; lookups take the first binding (Python dict keys are unique). -/
abbrev PyDict := List (String × String)

/-- `d.get(k, default)` on a Python dict. -/
def pyGet (d : PyDict) (k default : String) : String :=
  match d.lookup k with
  | some v => v
  | none => default

/-- `d.get(k, default)` when the default is absence. -/
def pyGet? (d : PyDict) (k : String) : Option String :=
  d.lookup k

/-- Python `str.lower()` (ASCII, which covers every type name used);
written through the character list so that the kernel can evaluate it. -/
def pyLower (s : String) : String :=
  String.mk (s.toList.map Char.toLower)

/-- One workflow node: `\x7b"id": ..., "data": \x7b...\x7d\x7d`. -/
structure PyNode where
  id : String
  data : PyDict
deriving DecidableEq, Repr

/-- One workflow edge: `\x7b"source": ..., "target": ...\x7d`. -/
structure PyEdge where
  source : String
  target : String
deriving DecidableEq, Repr

/-- The declared node ids, in declaration order, with duplicates kept
(this is `[node["id"] for node in nodes]`). -/
def nodeIds (nodes : List PyNode) : List String :=
  nodes.map (·.id)

/-- Iteration order of a Python dict comprehension keyed by node ids:
first occurrence of each id, in declaration order. -/
def pyKeys : List String → List String
  | [] => []
  | x :: xs => x :: (pyKeys xs).filter (· ≠ x)

/-- `node.get("data", \x7b\x7d).get("type", "").lower()` — the normalized
declared type of a node, as the validator and the factory compute it. -/
def typeOf (n : PyNode) : String :=
  pyLower (pyGet n.data "type" "")

/-- The validator's set of recognized (already lower-case) type names
(`valid_types` in `_validate_node_types`). -/
def valid_types : List String :=
  ["userquery", "user_query", "input",
   "knowledgebase", "knowledge_base",
   "llmengine", "llm_engine", "llm",
   "output"]

/-- `WorkflowValidator._validate_node_types`: first node with a missing or
unrecognized type decides the result. -/
def validate_node_types : List PyNode → Bool × String
  | [] => (true, "")
  | n :: ns =>
    let t := typeOf n
    if t = "" then (false, "Node " ++ n.id ++ " is missing a type")
    else if t ∉ valid_types then (false, "Unknown component type: " ++ t)
    else validate_node_types ns

/-- `WorkflowValidator._validate_connections`: every edge endpoint must be
a declared node id. -/
def validate_connections (nodes : List PyNode) : List PyEdge → Bool × String
  | [] => (true, "")
  | e :: es =>
    if e.source ∉ nodeIds nodes then
      (false, "Edge references non-existent source node: " ++ e.source)
    else if e.target ∉ nodeIds nodes then
      (false, "Edge references non-existent target node: " ++ e.target)
    else validate_connections nodes es

/-- `WorkflowValidator._validate_component_configs`: an LLM-engine node
must have a truthy `model` entry (the knowledge-base branch only logs a
warning and never fails). -/
def validate_component_configs : List PyNode → Bool × String
  | [] => (true, "")
  | n :: ns =>
    if typeOf n ∈ ["llmengine", "llm_engine", "llm"] ∧ pyGet n.data "model" "" = "" then
      (false, "LLM Engine node " ++ n.id ++ " must have a model specified")
    else validate_component_configs ns

/-- `WorkflowValidator._validate_workflow_flow`: at least one input-classified
and one output-classified node must be declared. -/
def validate_workflow_flow (nodes : List PyNode) : Bool × String :=
  let has_input := nodes.any fun n => typeOf n ∈ ["userquery", "user_query", "input"]
  let has_output := nodes.any fun n => typeOf n = "output"
  if ¬has_input then (false, "Workflow must have an Input/User Query component")
  else if ¬has_output then (false, "Workflow must have an Output component")
  else (true, "")

/-- The adjacency list of the graph both traversals build:
`graph[s] = [e["target"] for e in edges if e["source"] == s]`. -/
def adjOf (edges : List PyEdge) (s : String) : List String :=
  (edges.filter (fun e => e.source = s)).map (·.target)

/-- The one-step edge relation of the declared connection set. -/
def EdgeRel (edges : List PyEdge) (a b : String) : Prop :=
  ∃ e ∈ edges, e.source = a ∧ e.target = b

/-- Acyclicity of the connection set: no node lies on a directed cycle. -/
def Acyclic (edges : List PyEdge) : Prop :=
  ∀ v, ¬ Relation.TransGen (EdgeRel edges) v v

/-- Endpoint closure: every edge references declared node ids (invariant 4
of the spec; established by `_validate_connections`). -/
def EdgesClosed (nodes : List PyNode) (edges : List PyEdge) : Prop :=
  ∀ e ∈ edges, e.source ∈ nodeIds nodes ∧ e.target ∈ nodeIds nodes

instance (nodes : List PyNode) (edges : List PyEdge) : Decidable (EdgesClosed nodes edges) :=
  inferInstanceAs (Decidable (∀ e ∈ edges, e.source ∈ nodeIds nodes ∧ e.target ∈ nodeIds nodes))

/-- The neighbor loop of `has_cycle` (`for neighbor in graph.get(node_id, [])`),
with `rec` standing for the recursive call at the remaining fuel.  It
returns the cycle flag together with the updated visited set; the
recursion-stack argument is passed down only (Python removes the current
node from `rec_stack` before every `False` return, so a `False` return
leaves the caller's stack intact).  `none` means the fuel ran out. -/
def cycleFold (rec : String → List String → List String → Option (Bool × List String)) :
    List String → List String → List String → Option (Bool × List String)
  | [], vis, _ => some (false, vis)
  | nb :: nbs, vis, rs =>
    if nb ∈ vis then
      if nb ∈ rs then some (true, vis)
      else cycleFold rec nbs vis rs
    else
      match rec nb vis rs with
      | none => none
      | some (true, vis1) => some (true, vis1)
      | some (false, vis1) => cycleFold rec nbs vis1 rs

/-- The recursive `has_cycle(node_id)` of `_check_for_cycles`, with explicit
fuel (the Python recursion terminates because `visited` only grows;
`cycleFuel_sufficient` below shows the fuel chosen by `check_for_cycles`
never runs out, so the `none` branch is unreachable). -/
def hasCycle (adj : String → List String) : Nat → String → List String → List String →
    Option (Bool × List String)
  | 0, _, _, _ => none
  | fuel + 1, u, vis, rs => cycleFold (hasCycle adj fuel) (adj u) (u :: vis) (u :: rs)

/-- The root loop of `_check_for_cycles`
(`for node_id in graph: if node_id not in visited: ...`). -/
def cycleRoots (adj : String → List String) (fuel : Nat) :
    List String → List String → Option Bool
  | [], _ => some true
  | k :: ks, vis =>
    if k ∈ vis then cycleRoots adj fuel ks vis
    else
      match hasCycle adj fuel k vis [] with
      | none => none
      | some (true, _) => some false
      | some (false, vis1) => cycleRoots adj fuel ks vis1

/-- `WorkflowValidator._check_for_cycles`.  The fuel bound covers one unit
per distinct node the traversal can ever visit; `cycleFuel_sufficient`
proves the `none` fallback (which we map to the cycle answer arbitrarily)
is never taken. -/
def check_for_cycles (nodes : List PyNode) (edges : List PyEdge) : Bool × String :=
  let keys := pyKeys (nodeIds nodes)
  let univ := (keys ++ edges.map (·.target)).dedup
  match cycleRoots (adjOf edges) (univ.length + 1) keys [] with
  | some true => (true, "")
  | some false => (false, "Workflow contains a cycle")
  | none => (false, "Workflow contains a cycle")

/-- `WorkflowValidator.validate`: the checks run in source order,
short-circuiting on the first failure. -/
def validate (nodes : List PyNode) (edges : List PyEdge) : Bool × String :=
  if nodes.isEmpty then (false, "Workflow must have at least one component")
  else if nodes.length > 1 ∧ edges.isEmpty then
    (false, "Workflow components must be connected")
  else
    let r1 := validate_node_types nodes
    if ¬r1.1 then (false, r1.2)
    else
      let r2 := validate_connections nodes edges
      if ¬r2.1 then (false, r2.2)
      else
        let r3 := check_for_cycles nodes edges
        if ¬r3.1 then (false, r3.2)
        else
          let r4 := validate_component_configs nodes
          if ¬r4.1 then (false, r4.2)
          else
            let r5 := validate_workflow_flow nodes
            if ¬r5.1 then (false, r5.2)
            else (true, "Workflow is valid")

/-- The initial in-degree map of `get_execution_order`
(`in_degree[t] = number of edges with target t`; Python stores it in a
dict keyed by the declared ids and our theorems only read it at declared
ids, where the two agree). -/
def inDeg (edges : List PyEdge) (t : String) : Int :=
  ((edges.filter (fun e => e.target = t)).length : Int)

/-- The state of Kahn's algorithm: the work queue, the current in-degree
map, and the order accumulated so far. -/
structure KState where
  queue : List String
  indeg : String → Int
  order : List String

/-- The inner loop of one dequeue step
(`for neighbor in graph[node_id]: in_degree[neighbor] -= 1; if == 0: append`). -/
def stepNeighbors : List String → List String → (String → Int) →
    List String × (String → Int)
  | [], q, d => (q, d)
  | nb :: nbs, q, d =>
    let dv := d nb - 1
    stepNeighbors nbs (if dv = 0 then q ++ [nb] else q) (Function.update d nb dv)

/-- One iteration of the `while queue` loop: dequeue the head, append it to
the order, decrement its successors. -/
def kahnStep (adj : String → List String) (s : KState) : KState :=
  match s.queue with
  | [] => s
  | n :: rest =>
    let p := stepNeighbors (adj n) rest s.indeg
    ⟨p.1, p.2, s.order ++ [n]⟩

/-- The `while queue` loop with fuel (each iteration removes one element
from a queue into which every node enters at most once, so
`kahn_fuel_sufficient` below shows the fuel chosen in
`get_execution_order` always empties the queue). -/
def kahnLoop (adj : String → List String) : Nat → KState → KState
  | 0, s => s
  | fuel + 1, s => if s.queue.isEmpty then s else kahnLoop adj fuel (kahnStep adj s)

/-- The initial Kahn state: the queue holds the zero-in-degree ids in
declaration (dict-iteration) order. -/
def kahnInit (nodes : List PyNode) (edges : List PyEdge) : KState :=
  ⟨(pyKeys (nodeIds nodes)).filter (fun k => inDeg edges k = 0), inDeg edges, []⟩

/-- `WorkflowValidator.get_execution_order` (Kahn's algorithm with a FIFO
list queue). -/
def get_execution_order (nodes : List PyNode) (edges : List PyEdge) : List String :=
  (kahnLoop (adjOf edges) ((pyKeys (nodeIds nodes)).length + 1)
    (kahnInit nodes edges)).order

/-- The component classes of `app/components`; the factory only needs to
know which class a registry entry constructs. -/
inductive ComponentKind where
  | userQuery
  | knowledgeBase
  | llmEngine
  | outputComp
deriving DecidableEq, Repr

/-- `COMPONENT_REGISTRY` from `app/components/__init__.py`, with its exact
(mixed-case) keys in source order. -/
def COMPONENT_REGISTRY : List (String × ComponentKind) :=
  [("userQuery", .userQuery),
   ("user_query", .userQuery),
   ("input", .userQuery),
   ("knowledgeBase", .knowledgeBase),
   ("knowledge_base", .knowledgeBase),
   ("llmEngine", .llmEngine),
   ("llm_engine", .llmEngine),
   ("llm", .llmEngine),
   ("output", .outputComp)]

/-- `create_component(node_id, node_data)`: lower-case the declared type and
look it up, case-sensitively, among the registry keys; raise `ValueError`
(modelled as `Except.error`) when absent.  Note the mixed-case registry
keys can never equal a lower-cased string. -/
def create_component (node_data : PyDict) : Except String ComponentKind :=
  let component_type := pyLower (pyGet node_data "type" "")
  match COMPONENT_REGISTRY.lookup component_type with
  | some k => .ok k
  | none => .error ("Unknown component type: " ++ component_type)

/-- `WorkflowExecutor._initialize_components`: construct a component per
declared node; a construction failure is logged and re-raised
(`raise` in the `except` block), aborting on the first failing node. -/
def init_components : List PyNode → Except String Unit
  | [] => .ok ()
  | n :: ns =>
    match create_component n.data with
    | .error e => .error e
    | .ok _ => init_components ns

/-- Python `s[:n]` (slice by characters). -/
def pyTake (s : String) (n : Nat) : String :=
  String.mk (s.toList.take n)

/-- Python `str` of a string-valued dict (repr-escaping of quotes inside
values is not modelled; no claim depends on it). -/
def pyStrDict (d : PyDict) : String :=
  "\x7b" ++ String.intercalate ", " (d.map fun kv => "'" ++ kv.1 ++ "': '" ++ kv.2 ++ "'") ++ "\x7d"

/-- The `data_preview` field of `_log_execution`:
`str(data)[:200] if data else ""` (an empty dict is falsy). -/
def previewStr (d : PyDict) : String :=
  if d.isEmpty then "" else pyTake (pyStrDict d) 200

/-- One entry of `self.execution_log` (the wall-clock `timestamp` field is
not modelled). -/
structure LogEntry where
  node_id : String
  status : String
  data_preview : String
deriving DecidableEq, Repr

/-- The dictionary `WorkflowExecutor.execute` returns.  A successful run
carries no `error` key and a failed run carries no `full_output` key;
both are `Option`s here. -/
structure RunResult where
  success : Bool
  error : Option String
  output : Option String
  execution_log : List LogEntry
  full_output : Option PyDict
deriving DecidableEq, Repr

/-- The final-response extraction of `execute`:
`current_data.get("response", current_data.get("output", str(current_data)))`. -/
def finalOutput (d : PyDict) : String :=
  pyGet d "response" (pyGet d "output" (pyStrDict d))

/-- The `for node_id in execution_order` loop inside the `try` of
`execute`, threading the payload and accumulating the log.  A stage is an
arbitrary behavior `beh : node id → payload → Except message payload`
(the concrete components call external providers, so the executor
theorems quantify over `beh`); an exception from a stage is caught by the
surrounding `except` and becomes a structured failure carrying the log
accumulated so far. -/
def runLoop (beh : String → PyDict → Except String PyDict) :
    List String → PyDict → List LogEntry → RunResult
  | [], cur, log =>
    ⟨true, none, some (finalOutput cur), log, some cur⟩
  | nid :: rest, cur, log =>
    let log1 := log ++ [⟨nid, "started", previewStr cur⟩]
    match beh nid cur with
    | .error e => ⟨false, some e, none, log1, none⟩
    | .ok out => runLoop beh rest out (log1 ++ [⟨nid, "completed", previewStr out⟩])

/-- `WorkflowExecutor.execute(query)`.  Validation failure and stage
exceptions return structured results, but `_initialize_components()` is
called OUTSIDE the `try` block, so a component-construction failure
propagates to the caller as a raised exception — modelled as the
`Except.error` of the whole run. -/
def execute (nodes : List PyNode) (edges : List PyEdge)
    (beh : String → PyDict → Except String PyDict) (query : String) :
    Except String RunResult :=
  let v := validate nodes edges
  if ¬v.1 then .ok ⟨false, some v.2, none, [], none⟩
  else
    let execution_order := get_execution_order nodes edges
    match init_components nodes with
    | .error e => .error e
    | .ok _ => .ok (runLoop beh execution_order [("query", query)] [])

/-- Python `str.replace` on character lists (left-to-right,
non-overlapping) for a non-empty pattern `p :: ps`, with structural fuel
so that the kernel can evaluate it: every step consumes at least one
character, so with fuel `s.length` the fuel-exhaustion branch (which
returns the rest unscanned) is unreachable — see `replCharsF_fuel`. -/
def replCharsF (p : Char) (ps rep : List Char) : Nat → List Char → List Char
  | _, [] => []
  | 0, s => s
  | fuel + 1, c :: cs =>
    if (p :: ps).isPrefixOf (c :: cs) then
      rep ++ replCharsF p ps rep fuel (cs.drop ps.length)
    else c :: replCharsF p ps rep fuel cs

/-- Python `str.replace(pat, rep)` for the non-empty patterns the prompt
builder uses (the empty-pattern case of Python `replace` never arises). -/
def pyReplace (s pat rep : String) : String :=
  match pat.toList with
  | [] => s
  | p :: ps => String.mk (replCharsF p ps rep.toList s.toList.length s.toList)

/-- `LLMEngineComponent._build_prompt(query, context, web_context)` for a
component whose config carries `custom_prompt` (the `self.custom_prompt`
attribute; `""` when unset, and Python tests its truthiness). -/
def build_prompt (custom_prompt query context web_context : String) : String :=
  if custom_prompt ≠ "" then
    pyReplace (pyReplace (pyReplace (pyReplace custom_prompt
      "\x7bquery\x7d" query)
      "\x7bcontext\x7d" context)
      "\x7bUser Query\x7d" query)
      "\x7bCONTEXT\x7d" context
  else
    let prompt_parts :=
      (if context ≠ "" then ["Context from documents:\n" ++ context ++ "\n"] else []) ++
      (if web_context ≠ "" then ["Web search results:\n" ++ web_context ++ "\n"] else []) ++
      ["User query: " ++ query ++ "\n",
       "Please provide a helpful response based on the above information."]
    String.intercalate "\n" prompt_parts

/-! ### Specification-side predicates

The predicates below phrase what the spec claims, independently of how the
executor's loop threads its state; the claim theorems relate them to the
embedded code. -/

/-- The spec's description of a successful pipeline pass (§4.3 steps 4–5):
starting from payload `p`, each stage id in turn is logged `started` with
a preview of the incoming payload, executed, logged `completed` with a
preview of its result, and its result becomes the next payload, ending in
`final` with exactly this log. -/
inductive RunTrace (beh : String → PyDict → Except String PyDict) :
    List String → PyDict → PyDict → List LogEntry → Prop
  | nil (p : PyDict) : RunTrace beh [] p p []
  | cons (n : String) (rest : List String) (p p' final : PyDict) (log : List LogEntry) :
      beh n p = .ok p' →
      RunTrace beh rest p' final log →
      RunTrace beh (n :: rest) p final
        (⟨n, "started", previewStr p⟩ :: ⟨n, "completed", previewStr p'⟩ :: log)

/-- The log shape claimed implicitly by `_log_execution` and the loop: two
entries per executed stage, a `started` entry immediately followed by the
`completed` entry of the same stage, in execution order, each preview
produced by the preview function from some payload. -/
inductive PairedLog : List String → List LogEntry → Prop
  | nil : PairedLog [] []
  | cons (n : String) (rest : List String) (d d' : PyDict) (log : List LogEntry) :
      PairedLog rest log →
      PairedLog (n :: rest)
        (⟨n, "started", previewStr d⟩ :: ⟨n, "completed", previewStr d'⟩ :: log)

/-- The left-brace character, written via its code point so that no brace
appears in a string literal. -/
def lbrace : Char := Char.ofNat 123

/-- The four placeholder spellings `_build_prompt` substitutes, in the
order the code replaces them. -/
def promptTokens : List (List Char) :=
  ["\x7bquery\x7d".toList, "\x7bcontext\x7d".toList,
   "\x7bUser Query\x7d".toList, "\x7bCONTEXT\x7d".toList]

/-- Well-formedness of a placeholder token: a left brace followed by a
non-empty brace-free remainder (true of all four spellings). -/
def tokOK (T : List Char) : Bool :=
  match T with
  | [] => false
  | c :: t => c = lbrace ∧ ¬t.isEmpty ∧ lbrace ∉ t

/-- A string (as characters) that alternates brace-free text with
placeholder tokens drawn from `S`; `Mix [] s` means `s` is brace-free. -/
inductive Mix (S : List (List Char)) : List Char → Prop
  | nil : Mix S []
  | chr (c : Char) (s : List Char) : c ≠ lbrace → Mix S s → Mix S (c :: s)
  | tok (T : List Char) (s : List Char) : T ∈ S → Mix S s → Mix S (T ++ s)

/-- A template is well-placed when every left brace in it begins one of
the four placeholder spellings (so no substitution seam can re-create a
token, cf. the C9 counterexample).  Structural fuel again keeps the
definition kernel-evaluable; each step consumes at least one character,
so fuel `s.length` never runs out (`templOKF_fuel`). -/
def templOKF : Nat → List Char → Bool
  | _, [] => true
  | 0, _ => false
  | fuel + 1, c :: s =>
    if c ≠ lbrace then templOKF fuel s
    else if "\x7bquery\x7d".toList.isPrefixOf (c :: s) then
      templOKF fuel ((c :: s).drop "\x7bquery\x7d".toList.length)
    else if "\x7bcontext\x7d".toList.isPrefixOf (c :: s) then
      templOKF fuel ((c :: s).drop "\x7bcontext\x7d".toList.length)
    else if "\x7bUser Query\x7d".toList.isPrefixOf (c :: s) then
      templOKF fuel ((c :: s).drop "\x7bUser Query\x7d".toList.length)
    else if "\x7bCONTEXT\x7d".toList.isPrefixOf (c :: s) then
      templOKF fuel ((c :: s).drop "\x7bCONTEXT\x7d".toList.length)
    else false

/-- Entry point of `templOKF` with sufficient fuel. -/
def templOK (s : List Char) : Bool :=
  templOKF s.length s

/-- `pat` occurs (contiguously) inside `s`. -/
def Occurs (pat s : List Char) : Prop :=
  ∃ l r, s = l ++ pat ++ r

/-! ### Proof infrastructure for Kahn's algorithm -/

/-- Number of edges into `t` (the initial in-degree, as a `Nat`). -/
def inCnt (edges : List PyEdge) (t : String) : Nat :=
  (edges.filter (fun e => e.target = t)).length

/-- Number of edges into `t` whose source lies in `o`. -/
def srcCnt (edges : List PyEdge) (o : List String) (t : String) : Nat :=
  (edges.filter (fun e => e.target = t ∧ e.source ∈ o)).length

/-- A list is topologically sound for the edge set: wherever an id sits in
the list, all its in-edges come from the part strictly before it. -/
def OrderedOK (edges : List PyEdge) (order : List String) : Prop :=
  ∀ o1 x o2, order = o1 ++ x :: o2 → ∀ e ∈ edges, e.target = x → e.source ∈ o1

/-- The loop invariant of Kahn's algorithm as implemented in
`get_execution_order`. -/
structure KInv (nodes : List PyNode) (edges : List PyEdge) (s : KState) : Prop where
  nodup : (s.order ++ s.queue).Nodup
  mem_keys : ∀ x ∈ s.order ++ s.queue, x ∈ pyKeys (nodeIds nodes)
  indeg_eq : ∀ t, s.indeg t = (inCnt edges t : Int) - (srcCnt edges s.order t : Int)
  queue_src : ∀ x ∈ s.queue, ∀ e ∈ edges, e.target = x → e.source ∈ s.order
  pos : ∀ x ∈ pyKeys (nodeIds nodes), x ∉ s.order → x ∉ s.queue → 0 < s.indeg x
  ordered : OrderedOK edges s.order

/-! ### Proof infrastructure for the DFS cycle check -/

/-- The invariant of the depth-first cycle search: the recursion stack is
a subset of the visited set; a visited node that is off the stack is
*finished* — its successors are finished too, and no directed cycle runs
through it. -/
structure DFSInv (edges : List PyEdge) (vis rs : List String) : Prop where
  rs_vis : ∀ x ∈ rs, x ∈ vis
  closed : ∀ x ∈ vis, x ∉ rs → ∀ y, EdgeRel edges x y → y ∈ vis ∧ y ∉ rs
  nocyc : ∀ x ∈ vis, x ∉ rs → ¬ Relation.TransGen (EdgeRel edges) x x

/-! ## Theorems -/

/-- C7: a graph that fails validation makes `execute` return immediately
with `success=false`, the validator's message, a null output and an empty
log; the conclusion holds for every stage behavior `beh`, which is the
formal rendering of "no stage is instantiated and no stage executes"
(the result does not depend on any stage, and the loop and
`_initialize_components` are never reached). -/
theorem validation_failure_short_circuits
    (nodes : List PyNode) (edges : List PyEdge)
    (beh : String → PyDict → Except String PyDict) (query msg : String)
    (h : validate nodes edges = (false, msg)) :
    execute nodes edges beh query = .ok ⟨false, some msg, none, [], none⟩ := by
  simp [execute, h]

/-- Witness for C7: the spec's own example, a graph with no
output-classified stage. -/
theorem validation_failure_short_circuits_witness :
    validate [⟨"a", [("type", "input")]⟩] [] =
      (false, "Workflow must have an Output component")
    ∧ execute [⟨"a", [("type", "input")]⟩] [] (fun _ d => .ok d) "hi" =
      .ok ⟨false, some "Workflow must have an Output component", none, [], none⟩ :=
  ⟨by decide,
   validation_failure_short_circuits _ _ _ _ _ (by decide)⟩

/-- C2 (code bug): the validator's node-type check accepts the lower-cased
spelling `userquery`, and the registry itself contains the key
`userQuery` — which matches the declared type case-insensitively — yet
`create_component` raises, because it lower-cases the declared type and
then requires an exact, case-sensitive match against the mixed-case
registry keys, so the three camel-case registry entries are unreachable. -/
theorem registry_camel_case_keys_unreachable :
    ("userquery" ∈ valid_types)
    ∧ create_component [("type", "userquery")] =
        .error "Unknown component type: userquery"
    ∧ (("userQuery", ComponentKind.userQuery) ∈ COMPONENT_REGISTRY)
    ∧ pyLower "userQuery" = "userquery"
    ∧ create_component [("type", "userQuery")] =
        .error "Unknown component type: userquery"
    ∧ create_component [("type", "user_query")] = .ok ComponentKind.userQuery := by
  decide

/-- Counterexample to C1 as stated: a graph that passes validation but
whose declared type `userquery` makes `create_component` raise
`ValueError`; `_initialize_components` re-raises outside the `try` block
of `execute`, so the exception propagates to the caller (the whole run is
an `Except.error`, not a structured result). -/
theorem construction_failure_raises_cex :
    validate [⟨"a", [("type", "userquery")]⟩, ⟨"b", [("type", "output")]⟩]
        [⟨"a", "b"⟩] = (true, "Workflow is valid")
    ∧ execute [⟨"a", [("type", "userquery")]⟩, ⟨"b", [("type", "output")]⟩]
        [⟨"a", "b"⟩] (fun _ d => .ok d) "hello" =
        .error "Unknown component type: userquery" := by
  decide

/-- Counterexample to C3 as stated: in the graph with nodes declared
`[U, W, V]` and the single edge `W → U`, after the first dequeue both `U`
and `V` sit in the queue with in-degree zero (they are simultaneously
available), `U` precedes `V` in declaration order, yet the returned order
is `[W, V, U]` with `V` before `U`: the queue is FIFO by the time a stage
reached in-degree zero, not sorted by declaration order. -/
theorem tie_break_declaration_order_cex :
    nodeIds [⟨"U", [("type", "input")]⟩, ⟨"W", [("type", "input")]⟩,
        ⟨"V", [("type", "output")]⟩] = ["U", "W", "V"]
    ∧ (kahnStep (adjOf [⟨"W", "U"⟩])
        (kahnInit [⟨"U", [("type", "input")]⟩, ⟨"W", [("type", "input")]⟩,
          ⟨"V", [("type", "output")]⟩] [⟨"W", "U"⟩])).queue = ["V", "U"]
    ∧ (kahnStep (adjOf [⟨"W", "U"⟩])
        (kahnInit [⟨"U", [("type", "input")]⟩, ⟨"W", [("type", "input")]⟩,
          ⟨"V", [("type", "output")]⟩] [⟨"W", "U"⟩])).indeg "U" = 0
    ∧ (kahnStep (adjOf [⟨"W", "U"⟩])
        (kahnInit [⟨"U", [("type", "input")]⟩, ⟨"W", [("type", "input")]⟩,
          ⟨"V", [("type", "output")]⟩] [⟨"W", "U"⟩])).indeg "V" = 0
    ∧ get_execution_order [⟨"U", [("type", "input")]⟩, ⟨"W", [("type", "input")]⟩,
        ⟨"V", [("type", "output")]⟩] [⟨"W", "U"⟩] = ["W", "V", "U"] := by
  decide

/-- Counterexample to C9 as stated: with the non-empty custom template
`\x7bqu\x7bcontext\x7dery\x7d` and an empty context value, substituting
`\x7bcontext\x7d` glues `\x7bqu` to `ery\x7d` and re-creates the literal
token `\x7bquery\x7d` — which survives, because the `\x7bquery\x7d` pass
ran first.  So a literal placeholder spelling can remain in the produced
text. -/
theorem custom_template_token_remains_cex :
    build_prompt "\x7bqu\x7bcontext\x7dery\x7d" "x" "" "" = "\x7bquery\x7d"
    ∧ Occurs "\x7bquery\x7d".toList
        (build_prompt "\x7bqu\x7bcontext\x7dery\x7d" "x" "" "").toList := by
  refine ⟨by decide, ⟨[], [], by decide⟩⟩

/-- The success path of the stage loop is exactly a `RunTrace`: the log
grows by the trace's entries and the result fields are computed from the
final payload. -/
theorem runLoop_ok_trace (beh : String → PyDict → Except String PyDict) :
    ∀ (ord : List String) (cur : PyDict) (log : List LogEntry) (r : RunResult),
      runLoop beh ord cur log = r → r.success = true →
      ∃ final tl, RunTrace beh ord cur final tl ∧
        r = ⟨true, none, some (finalOutput final), log ++ tl, some final⟩ := by
  intro ord
  induction ord with
  | nil =>
    intro cur log r h _
    exact ⟨cur, [], .nil cur, by simp [runLoop] at h; simp [← h]⟩
  | cons nid rest ih =>
    intro cur log r h hs
    simp only [runLoop] at h
    cases hb : beh nid cur with
    | error e =>
      rw [hb] at h
      simp [← h] at hs
    | ok out =>
      rw [hb] at h
      obtain ⟨final, tl, ht, hr⟩ := ih out _ r h hs
      refine ⟨final, _, .cons nid rest cur out final tl hb ht, ?_⟩
      simp [hr]

/-- The failure path of the stage loop: a prefix of the order ran as a
`RunTrace`, then one stage raised; the result carries that stage's
message and the log accumulated so far (the pairs of the prefix plus the
failing stage's `started` entry). -/
theorem runLoop_error_trace (beh : String → PyDict → Except String PyDict) :
    ∀ (ord : List String) (cur : PyDict) (log : List LogEntry) (r : RunResult),
      runLoop beh ord cur log = r → r.success = false →
      ∃ ord1 n ord2 p tl m, ord = ord1 ++ n :: ord2 ∧
        RunTrace beh ord1 cur p tl ∧ beh n p = .error m ∧
        r = ⟨false, some m, none, log ++ tl ++ [⟨n, "started", previewStr p⟩], none⟩ := by
  intro ord
  induction ord with
  | nil =>
    intro cur log r h hs
    simp [runLoop] at h
    simp [← h] at hs
  | cons nid rest ih =>
    intro cur log r h hs
    simp only [runLoop] at h
    cases hb : beh nid cur with
    | error e =>
      rw [hb] at h
      exact ⟨[], nid, rest, cur, [], e, rfl, .nil cur, hb, by simp [← h]⟩
    | ok out =>
      rw [hb] at h
      obtain ⟨ord1, n, ord2, p, tl, m, ho, ht, hbe, hr⟩ := ih out _ r h hs
      refine ⟨nid :: ord1, n, ord2, p, _, m, by simp [ho],
        .cons nid ord1 cur out p tl hb ht, hbe, ?_⟩
      simp [hr]

/-- A successful trace has the paired log shape. -/
theorem runTrace_pairedLog {beh : String → PyDict → Except String PyDict}
    {ord : List String} {p final : PyDict} {tl : List LogEntry}
    (h : RunTrace beh ord p final tl) : PairedLog ord tl := by
  induction h with
  | nil _ => exact .nil
  | cons n rest p p' final log _ _ ih => exact .cons n rest p p' log ih

/-- Every entry of a paired log is a `started` or `completed` entry whose
preview the preview function produced. -/
theorem pairedLog_entries {ord : List String} {log : List LogEntry}
    (h : PairedLog ord log) :
    ∀ e ∈ log, (e.status = "started" ∨ e.status = "completed")
      ∧ ∃ d, e.data_preview = previewStr d := by
  induction h with
  | nil => intro e he; cases he
  | cons n rest d d' log _ ih =>
    intro e he
    simp only [List.mem_cons] at he
    rcases he with rfl | rfl | he
    · exact ⟨Or.inl rfl, d, rfl⟩
    · exact ⟨Or.inr rfl, d', rfl⟩
    · exact ih e he

/-- The preview is at most 200 characters, and empty exactly on the falsy
(empty) payload. -/
theorem previewStr_spec (d : PyDict) :
    (previewStr d).length ≤ 200 ∧ (d.isEmpty → previewStr d = "") := by
  constructor
  · by_cases h : d.isEmpty
    · simp [previewStr, h]
    · have he : previewStr d = pyTake (pyStrDict d) 200 := by simp [previewStr, h]
      rw [he]
      exact List.length_take_le 200 (pyStrDict d).toList
  · intro h; simp [previewStr, h]

/-- C8: on a successful run, `execute` seeds the payload with
`\x7bquery: initialInput\x7d` and the run is exactly a `RunTrace` over
the computed execution order — per stage a `started` entry previewing the
incoming payload, the stage call, a `completed` entry previewing its
result, the result becoming the next payload — and the final `output`
field is the final payload's `response` value if that key is present,
else its `output` value if present, else its string representation. -/
theorem execute_success_trace
    (nodes : List PyNode) (edges : List PyEdge)
    (beh : String → PyDict → Except String PyDict) (q : String) (r : RunResult)
    (h : execute nodes edges beh q = .ok r) (hs : r.success = true) :
    ∃ final,
      RunTrace beh (get_execution_order nodes edges) [("query", q)] final r.execution_log
      ∧ r.error = none ∧ r.full_output = some final
      ∧ r.output = some (finalOutput final)
      ∧ (∀ v, final.lookup "response" = some v → r.output = some v)
      ∧ (final.lookup "response" = none →
          ∀ v, final.lookup "output" = some v → r.output = some v)
      ∧ (final.lookup "response" = none → final.lookup "output" = none →
          r.output = some (pyStrDict final)) := by
  simp only [execute] at h
  by_cases hv : (validate nodes edges).1 = true
  · rw [if_neg (by simp [hv])] at h
    cases hin : init_components nodes with
    | error e => rw [hin] at h; cases h
    | ok u =>
      rw [hin] at h
      obtain ⟨final, tl, ht, hr⟩ :=
        runLoop_ok_trace beh (get_execution_order nodes edges) [("query", q)] []
          r (by injection h) hs
      refine ⟨final, ?_, by simp [hr], by simp [hr], by simp [hr], ?_, ?_, ?_⟩
      · simpa [hr] using ht
      · intro v hv'; simp [hr, finalOutput, pyGet, hv']
      · intro hn v hv'; simp [hr, finalOutput, pyGet, hn, hv']
      · intro hn hn'; simp [hr, finalOutput, pyGet, hn, hn']
  · rw [if_pos (by simp [hv])] at h
    injection h with h'
    rw [← h'] at hs
    cases hs

/-- Witness for C8: the two-stage graph `a → b` run with identity stages
succeeds, and the theorem instantiates on its concrete result. -/
theorem execute_success_trace_witness :
    ∃ final,
      RunTrace (fun _ d => Except.ok d)
        (get_execution_order
          [⟨"a", [("type", "input")]⟩, ⟨"b", [("type", "output")]⟩] [⟨"a", "b"⟩])
        [("query", "hi")] final
        [⟨"a", "started", previewStr [("query", "hi")]⟩,
         ⟨"a", "completed", previewStr [("query", "hi")]⟩,
         ⟨"b", "started", previewStr [("query", "hi")]⟩,
         ⟨"b", "completed", previewStr [("query", "hi")]⟩]
      ∧ (none : Option String) = none
      ∧ (some [("query", "hi")] : Option PyDict) = some final
      ∧ some (pyStrDict [("query", "hi")]) = some (finalOutput final)
      ∧ (∀ v, final.lookup "response" = some v →
          some (pyStrDict [("query", "hi")]) = some v)
      ∧ (final.lookup "response" = none →
          ∀ v, final.lookup "output" = some v →
            some (pyStrDict [("query", "hi")]) = some v)
      ∧ (final.lookup "response" = none → final.lookup "output" = none →
          some (pyStrDict [("query", "hi")]) = some (pyStrDict final)) :=
  execute_success_trace
    [⟨"a", [("type", "input")]⟩, ⟨"b", [("type", "output")]⟩] [⟨"a", "b"⟩]
    (fun _ d => Except.ok d) "hi"
    ⟨true, none, some (pyStrDict [("query", "hi")]),
      [⟨"a", "started", previewStr [("query", "hi")]⟩,
       ⟨"a", "completed", previewStr [("query", "hi")]⟩,
       ⟨"b", "started", previewStr [("query", "hi")]⟩,
       ⟨"b", "completed", previewStr [("query", "hi")]⟩],
      some [("query", "hi")]⟩
    (by decide) rfl

/-- C10: on a run that returns `success=true` the execution log is exactly
two entries per executed stage — a `started` entry immediately followed
by the `completed` entry of the same stage id — in execution order; every
entry's status is `started` or `completed`; every preview is at most 200
characters and is empty for the falsy (empty) payload. -/
theorem execute_success_log_shape
    (nodes : List PyNode) (edges : List PyEdge)
    (beh : String → PyDict → Except String PyDict) (q : String) (r : RunResult)
    (h : execute nodes edges beh q = .ok r) (hs : r.success = true) :
    PairedLog (get_execution_order nodes edges) r.execution_log
    ∧ (∀ e ∈ r.execution_log,
        (e.status = "started" ∨ e.status = "completed") ∧ e.data_preview.length ≤ 200)
    ∧ (∀ d : PyDict, (previewStr d).length ≤ 200 ∧ (d.isEmpty → previewStr d = "")) := by
  simp only [execute] at h
  by_cases hv : (validate nodes edges).1 = true
  · rw [if_neg (by simp [hv])] at h
    cases hin : init_components nodes with
    | error e => rw [hin] at h; cases h
    | ok u =>
      rw [hin] at h
      obtain ⟨final, tl, ht, hr⟩ :=
        runLoop_ok_trace beh (get_execution_order nodes edges) [("query", q)] []
          r (by injection h) hs
      have hp : PairedLog (get_execution_order nodes edges) r.execution_log := by
        rw [hr]
        simpa using runTrace_pairedLog ht
      refine ⟨hp, ?_, fun d => previewStr_spec d⟩
      intro e he
      obtain ⟨hst, d, hd⟩ := pairedLog_entries hp e he
      exact ⟨hst, by rw [hd]; exact (previewStr_spec d).1⟩
  · rw [if_pos (by simp [hv])] at h
    injection h with h'
    rw [← h'] at hs
    cases hs

/-- Witness for C10: the concrete successful run of the graph `a → b`. -/
theorem execute_success_log_shape_witness :
    PairedLog
      (get_execution_order
        [⟨"a", [("type", "input")]⟩, ⟨"b", [("type", "output")]⟩] [⟨"a", "b"⟩])
      [⟨"a", "started", previewStr [("query", "hi")]⟩,
       ⟨"a", "completed", previewStr [("query", "hi")]⟩,
       ⟨"b", "started", previewStr [("query", "hi")]⟩,
       ⟨"b", "completed", previewStr [("query", "hi")]⟩]
    ∧ (∀ e ∈ [⟨"a", "started", previewStr [("query", "hi")]⟩,
        ⟨"a", "completed", previewStr [("query", "hi")]⟩,
        ⟨"b", "started", previewStr [("query", "hi")]⟩,
        (⟨"b", "completed", previewStr [("query", "hi")]⟩ : LogEntry)],
        (e.status = "started" ∨ e.status = "completed") ∧ e.data_preview.length ≤ 200)
    ∧ (∀ d : PyDict, (previewStr d).length ≤ 200 ∧ (d.isEmpty → previewStr d = "")) :=
  execute_success_log_shape
    [⟨"a", [("type", "input")]⟩, ⟨"b", [("type", "output")]⟩] [⟨"a", "b"⟩]
    (fun _ d => Except.ok d) "hi"
    ⟨true, none, some (pyStrDict [("query", "hi")]),
      [⟨"a", "started", previewStr [("query", "hi")]⟩,
       ⟨"a", "completed", previewStr [("query", "hi")]⟩,
       ⟨"b", "started", previewStr [("query", "hi")]⟩,
       ⟨"b", "completed", previewStr [("query", "hi")]⟩],
      some [("query", "hi")]⟩
    (by decide) rfl

/-- C1 (amended): `execute` returns a structured `success=false` result
with a specific message and the log accumulated so far for validation
failures and for exceptions raised during a stage's execution, but a
stage-construction failure propagates as a raised exception (it aborts
the run before any stage executes — the propagated error does not depend
on the stage behaviors — but it is not a structured result). -/
theorem execute_failure_modes
    (nodes : List PyNode) (edges : List PyEdge)
    (beh : String → PyDict → Except String PyDict) (q : String) :
    (∀ msg, validate nodes edges = (false, msg) →
      execute nodes edges beh q = .ok ⟨false, some msg, none, [], none⟩)
    ∧ (∀ e, execute nodes edges beh q = .error e ↔
        ((validate nodes edges).1 = true ∧ init_components nodes = .error e))
    ∧ (∀ e, execute nodes edges beh q = .error e →
        ∀ beh', execute nodes edges beh' q = .error e)
    ∧ (∀ r, execute nodes edges beh q = .ok r → r.success = false →
        (∃ msg, validate nodes edges = (false, msg)
            ∧ r = ⟨false, some msg, none, [], none⟩)
        ∨ (∃ ord1 n ord2 p tl m,
            get_execution_order nodes edges = ord1 ++ n :: ord2
            ∧ RunTrace beh ord1 [("query", q)] p tl
            ∧ beh n p = .error m
            ∧ r = ⟨false, some m, none, tl ++ [⟨n, "started", previewStr p⟩], none⟩)) := by
  have hiff : ∀ (beh' : String → PyDict → Except String PyDict) e,
      execute nodes edges beh' q = .error e ↔
        ((validate nodes edges).1 = true ∧ init_components nodes = .error e) := by
    intro beh' e
    simp only [execute]
    by_cases hv : (validate nodes edges).1 = true
    · rw [if_neg (by simp [hv])]
      cases hin : init_components nodes with
      | error e' =>
        constructor
        · intro h; injection h with h'; exact ⟨hv, by rw [h']⟩
        · rintro ⟨-, h⟩; injection h with h'; rw [h']
      | ok u =>
        constructor
        · intro h; cases h
        · rintro ⟨-, h⟩; cases h
    · rw [if_pos (by simp [hv])]
      constructor
      · intro h; cases h
      · rintro ⟨hv', -⟩; exact absurd hv' hv
  refine ⟨?_, hiff beh, ?_, ?_⟩
  · intro msg hmsg
    simp [execute, hmsg]
  · intro e h beh'
    exact (hiff beh' e).2 ((hiff beh e).1 h)
  · intro r h hs
    simp only [execute] at h
    by_cases hv : (validate nodes edges).1 = true
    · rw [if_neg (by simp [hv])] at h
      cases hin : init_components nodes with
      | error e => rw [hin] at h; cases h
      | ok u =>
        rw [hin] at h
        obtain ⟨ord1, n, ord2, p, tl, m, ho, ht, hbe, hr⟩ :=
          runLoop_error_trace beh (get_execution_order nodes edges) [("query", q)] []
            r (by injection h) hs
        exact Or.inr ⟨ord1, n, ord2, p, tl, m, ho, ht, hbe, by simpa using hr⟩
    · rw [if_pos (by simp [hv])] at h
      injection h with h'
      refine Or.inl ⟨(validate nodes edges).2, ?_, h'.symm⟩
      have : (validate nodes edges).1 = false := by
        cases hvv : (validate nodes edges).1
        · rfl
        · exact absurd hvv hv
      exact Prod.ext this rfl

/-- Witness for C1 (amended): a stage exception in the run of `a → b`
yields a structured failure with the log accumulated so far. -/
theorem execute_failure_modes_witness :
    (⟨false, some "boom", none,
        [⟨"a", "started", previewStr [("query", "hi")]⟩,
         ⟨"a", "completed", previewStr [("query", "hi")]⟩,
         ⟨"b", "started", previewStr [("query", "hi")]⟩], none⟩ : RunResult).success = false
    ∧ ((∃ msg, validate [⟨"a", [("type", "input")]⟩, ⟨"b", [("type", "output")]⟩]
          [⟨"a", "b"⟩] = (false, msg)
        ∧ (⟨false, some "boom", none,
            [⟨"a", "started", previewStr [("query", "hi")]⟩,
             ⟨"a", "completed", previewStr [("query", "hi")]⟩,
             ⟨"b", "started", previewStr [("query", "hi")]⟩], none⟩ : RunResult)
          = ⟨false, some msg, none, [], none⟩)
      ∨ (∃ ord1 n ord2 p tl m,
          get_execution_order [⟨"a", [("type", "input")]⟩, ⟨"b", [("type", "output")]⟩]
            [⟨"a", "b"⟩] = ord1 ++ n :: ord2
          ∧ RunTrace (fun n d => if n = "b" then Except.error "boom" else Except.ok d)
              ord1 [("query", "hi")] p tl
          ∧ (if n = "b" then Except.error "boom" else Except.ok p) = Except.error m
          ∧ (⟨false, some "boom", none,
              [⟨"a", "started", previewStr [("query", "hi")]⟩,
               ⟨"a", "completed", previewStr [("query", "hi")]⟩,
               ⟨"b", "started", previewStr [("query", "hi")]⟩], none⟩ : RunResult)
            = ⟨false, some m, none, tl ++ [⟨n, "started", previewStr p⟩], none⟩)) :=
  ⟨rfl,
    (execute_failure_modes
      [⟨"a", [("type", "input")]⟩, ⟨"b", [("type", "output")]⟩] [⟨"a", "b"⟩]
      (fun n d => if n = "b" then Except.error "boom" else Except.ok d) "hi").2.2.2
      ⟨false, some "boom", none,
        [⟨"a", "started", previewStr [("query", "hi")]⟩,
         ⟨"a", "completed", previewStr [("query", "hi")]⟩,
         ⟨"b", "started", previewStr [("query", "hi")]⟩], none⟩
      (by decide) rfl⟩

/-- `pyKeys` keeps exactly the members of the original list. -/
theorem mem_pyKeys {a : String} {l : List String} : a ∈ pyKeys l ↔ a ∈ l := by
  induction l with
  | nil => simp [pyKeys]
  | cons x xs ih =>
    by_cases h : a = x
    · simp [pyKeys, h]
    · simp [pyKeys, h, List.mem_filter, ih]

/-- `pyKeys` has no duplicates. -/
theorem pyKeys_nodup (l : List String) : (pyKeys l).Nodup := by
  induction l with
  | nil => simp [pyKeys]
  | cons x xs ih =>
    refine List.Nodup.cons ?_ (ih.filter _)
    intro hx
    simp [List.mem_filter] at hx

/-- `pyKeys` never lengthens a list. -/
theorem pyKeys_length_le (l : List String) : (pyKeys l).length ≤ l.length := by
  induction l with
  | nil => simp [pyKeys]
  | cons x xs ih =>
    simp only [pyKeys, List.length_cons]
    have := List.length_filter_le (fun b => decide (b ≠ x)) (pyKeys xs)
    omega

/-- A duplicate-free list contained in another is no longer than it. -/
theorem nodup_subset_length {l l' : List String} (hd : l.Nodup)
    (hsub : ∀ x ∈ l, x ∈ l') : l.length ≤ l'.length := by
  calc l.length = l.toFinset.card := (List.toFinset_card_of_nodup hd).symm
    _ ≤ l'.toFinset.card := Finset.card_le_card (by
        intro x hx
        rw [List.mem_toFinset] at hx ⊢
        exact hsub x hx)
    _ ≤ l'.length := List.toFinset_card_le l'

/-- Splitting a filter over a pointwise-disjoint disjunction. -/
theorem length_filter_or {α : Type} (l : List α) (p q : α → Prop)
    [DecidablePred p] [DecidablePred q] (hdisj : ∀ e ∈ l, ¬(p e ∧ q e)) :
    (l.filter (fun e => p e ∨ q e)).length =
      (l.filter (fun e => p e)).length + (l.filter (fun e => q e)).length := by
  induction l with
  | nil => rfl
  | cons e es ih =>
    have hd : ∀ x ∈ es, ¬(p x ∧ q x) := fun x hx => hdisj x (List.mem_cons_of_mem e hx)
    have ihh := ih hd
    simp only [Bool.decide_or] at ihh
    by_cases hp : p e
    · have hq : ¬q e := fun hq => hdisj e (List.mem_cons_self e es) ⟨hp, hq⟩
      simp [List.filter_cons, hp, hq]
      omega
    · by_cases hq : q e
      · simp [List.filter_cons, hp, hq]
        omega
      · simp [List.filter_cons, hp, hq]
        omega

/-- Counting in-edges whose source lies in `o ++ [n]`, for fresh `n`. -/
theorem srcCnt_snoc (edges : List PyEdge) (o : List String) (n t : String)
    (hn : n ∉ o) :
    srcCnt edges (o ++ [n]) t =
      srcCnt edges o t +
        (edges.filter (fun e => e.target = t ∧ e.source = n)).length := by
  unfold srcCnt
  have hcong : edges.filter (fun e => e.target = t ∧ e.source ∈ o ++ [n]) =
      edges.filter (fun e => (e.target = t ∧ e.source ∈ o) ∨ (e.target = t ∧ e.source = n)) := by
    apply List.filter_congr
    intro e _
    simp only [decide_eq_decide, List.mem_append, List.mem_singleton]
    tauto
  rw [hcong]
  exact length_filter_or edges _ _
    (fun e _ h => hn (h.2.2 ▸ h.1.2))

/-- Restricting in-edge sources is a nested filter. -/
theorem srcCnt_nested (edges : List PyEdge) (o : List String) (t : String) :
    srcCnt edges o t =
      ((edges.filter (fun e => e.target = t)).filter (fun e => e.source ∈ o)).length := by
  unfold srcCnt
  congr 1
  rw [List.filter_filter]
  apply List.filter_congr
  intro e _
  rw [Bool.decide_and, Bool.and_comm]

/-- The source-restricted count never exceeds the in-degree. -/
theorem srcCnt_le_inCnt (edges : List PyEdge) (o : List String) (t : String) :
    srcCnt edges o t ≤ inCnt edges t := by
  rw [srcCnt_nested]
  exact List.length_filter_le _ _

/-- If every in-edge of `t` has its source in `o`, the two counts agree. -/
theorem srcCnt_eq_inCnt (edges : List PyEdge) (o : List String) (t : String)
    (h : ∀ e ∈ edges, e.target = t → e.source ∈ o) :
    srcCnt edges o t = inCnt edges t := by
  unfold srcCnt inCnt
  apply congrArg
  apply List.filter_congr
  intro e he
  simp only [decide_eq_decide]
  exact ⟨fun hh => hh.1, fun hh => ⟨hh, h e he hh⟩⟩

/-- A filter of full length keeps everything: all elements satisfy it. -/
theorem filter_length_eq_all {α : Type} (l : List α) (p : α → Prop) [DecidablePred p]
    (h : (l.filter (fun a => p a)).length = l.length) : ∀ a ∈ l, p a := by
  rw [← List.countP_eq_length_filter] at h
  intro a ha
  simpa using List.countP_eq_length.mp h a ha

/-- Conversely, equal counts force every in-edge source into `o`. -/
theorem srcCnt_eq_inCnt_rev (edges : List PyEdge) (o : List String) (t : String)
    (h : srcCnt edges o t = inCnt edges t) :
    ∀ e ∈ edges, e.target = t → e.source ∈ o := by
  rw [srcCnt_nested] at h
  unfold inCnt at h
  intro e he ht
  exact filter_length_eq_all _ _ h e (List.mem_filter.mpr ⟨he, by simp [ht]⟩)

/-- Multiplicity of `x` among the successors of `n` equals the number of
`n → x` edges. -/
theorem count_adjOf (edges : List PyEdge) (n x : String) :
    (adjOf edges n).count x =
      (edges.filter (fun e => e.target = x ∧ e.source = n)).length := by
  unfold adjOf
  rw [List.count_eq_countP, List.countP_map, List.countP_filter,
    ← List.countP_eq_length_filter]
  apply List.countP_congr
  intro e _
  by_cases h1 : e.target = x <;> by_cases h2 : e.source = n <;>
    simp [h1, h2, Function.comp]

/-- What one dequeue's neighbor pass does: every neighbor occurrence is
decremented once, and exactly the ids whose running value hits zero —
those with `1 ≤ d x ≤` multiplicity — are appended (each at most once),
at the back of the queue. -/
theorem stepNeighbors_spec :
    ∀ (nbs q : List String) (d : String → Int),
      (∀ t, (stepNeighbors nbs q d).2 t = d t - (nbs.count t : Int))
      ∧ ∃ Δ, (stepNeighbors nbs q d).1 = q ++ Δ ∧ Δ.Nodup
          ∧ (∀ x, x ∈ Δ ↔ (1 ≤ d x ∧ d x ≤ (nbs.count x : Int))) := by
  intro nbs
  induction nbs with
  | nil =>
    intro q d
    refine ⟨fun t => by simp [stepNeighbors], [], by simp [stepNeighbors], by simp, ?_⟩
    intro x
    simp only [List.count_nil, Nat.cast_zero, List.not_mem_nil, false_iff]
    omega
  | cons nb nbs ih =>
    intro q d
    have hstep : stepNeighbors (nb :: nbs) q d =
        stepNeighbors nbs (if d nb - 1 = 0 then q ++ [nb] else q)
          (Function.update d nb (d nb - 1)) := rfl
    obtain ⟨ih1, Δ', hq', hnd', hchar'⟩ :=
      ih (if d nb - 1 = 0 then q ++ [nb] else q) (Function.update d nb (d nb - 1))
    constructor
    · intro t
      rw [hstep, ih1 t]
      by_cases ht : t = nb
      · subst ht
        simp [Function.update_same, List.count_cons_self]
        ring
      · simp [Function.update_noteq ht, List.count_cons_of_ne ht]
    · by_cases hdv : d nb - 1 = 0
      · refine ⟨nb :: Δ', ?_, ?_, ?_⟩
        · rw [hstep, hq', if_pos hdv]
          simp
        · refine List.Nodup.cons ?_ hnd'
          intro hmem
          have := (hchar' nb).1 hmem
          rw [Function.update_same] at this
          omega
        · intro x
          by_cases hx : x = nb
          · rw [hx]
            simp only [List.mem_cons, true_or, true_iff]
            refine ⟨by omega, ?_⟩
            rw [List.count_cons_self]
            push_cast
            omega
          · have := hchar' x
            rw [Function.update_noteq hx] at this
            simp only [List.mem_cons, hx, false_or, this,
              List.count_cons_of_ne hx]
      · refine ⟨Δ', ?_, hnd', ?_⟩
        · rw [hstep, hq', if_neg hdv]
        · intro x
          by_cases hx : x = nb
          · subst hx
            have := hchar' x
            rw [Function.update_same] at this
            rw [this, List.count_cons_self]
            push_cast
            omega
          · have := hchar' x
            rw [Function.update_noteq hx] at this
            rw [this, List.count_cons_of_ne hx]

/-- Everything already ordered or queued has current in-degree zero: its
in-edges all come from the order (directly for queued ids, via
`OrderedOK` for ordered ids). -/
theorem kinv_indeg_zero {nodes : List PyNode} {edges : List PyEdge} {s : KState}
    (h : KInv nodes edges s) : ∀ x ∈ s.order ++ s.queue, s.indeg x = 0 := by
  intro x hx
  rw [List.mem_append] at hx
  have hsrc : ∀ e ∈ edges, e.target = x → e.source ∈ s.order := by
    rcases hx with hx | hx
    · obtain ⟨o1, o2, ho⟩ := List.append_of_mem hx
      intro e he ht
      have := h.ordered o1 x o2 ho e he ht
      rw [ho]
      exact List.mem_append_left _ this
    · exact h.queue_src x hx
  rw [h.indeg_eq x, srcCnt_eq_inCnt edges s.order x hsrc]
  omega

/-- Decompositions of `o ++ [n]` around a distinguished element. -/
theorem snoc_decomp {o o1 o2 : List String} {n x : String}
    (h : o ++ [n] = o1 ++ x :: o2) :
    (o1 = o ∧ x = n ∧ o2 = []) ∨ ∃ o2', o = o1 ++ x :: o2' ∧ o2 = o2' ++ [n] := by
  rcases List.eq_nil_or_concat o2 with h2 | ⟨l, b, h2⟩
  · subst h2
    obtain ⟨ho, hx⟩ := List.append_inj' h rfl
    exact Or.inl ⟨ho.symm, (List.singleton_injective hx).symm, rfl⟩
  · subst h2
    rw [List.concat_eq_append] at h
    have h' : o ++ [n] = (o1 ++ x :: l) ++ [b] := by
      rw [h]
      simp
    obtain ⟨ho, hb⟩ := List.append_inj' h' rfl
    refine Or.inr ⟨l, ho, ?_⟩
    rw [List.concat_eq_append, List.singleton_injective hb]

/-- Appending an id whose in-edges all come from `o` preserves topological
soundness. -/
theorem orderedOK_snoc {edges : List PyEdge} {o : List String} {n : String}
    (ho : OrderedOK edges o) (hn : ∀ e ∈ edges, e.target = n → e.source ∈ o) :
    OrderedOK edges (o ++ [n]) := by
  intro o1 x o2 heq e he ht
  rcases snoc_decomp heq with ⟨ho1, hx, -⟩ | ⟨o2', ho', -⟩
  · subst ho1
    exact hn e he (by rw [ht, hx])
  · exact ho o1 x o2' ho' e he ht

/-- One dequeue preserves the Kahn invariant; the dequeued id moves to the
end of the order and the queue is only extended at the back. -/
theorem kahnStep_inv {nodes : List PyNode} {edges : List PyEdge}
    (EC : EdgesClosed nodes edges) (s : KState)
    (hinv : KInv nodes edges s) (n : String) (rest : List String)
    (hq : s.queue = n :: rest) :
    KInv nodes edges (kahnStep (adjOf edges) s)
    ∧ (kahnStep (adjOf edges) s).order = s.order ++ [n]
    ∧ ∃ Δ, (kahnStep (adjOf edges) s).queue = rest ++ Δ := by
  obtain ⟨queue0, indeg0, order0⟩ := s
  simp only at hq
  subst hq
  obtain ⟨h1, Δ, hqΔ, hndΔ, hchar⟩ := stepNeighbors_spec (adjOf edges n) rest indeg0
  have hs' : kahnStep (adjOf edges) ⟨n :: rest, indeg0, order0⟩ =
      ⟨rest ++ Δ, (stepNeighbors (adjOf edges n) rest indeg0).2, order0 ++ [n]⟩ := by
    show (⟨(stepNeighbors (adjOf edges n) rest indeg0).1,
      (stepNeighbors (adjOf edges n) rest indeg0).2, order0 ++ [n]⟩ : KState) = _
    rw [hqΔ]
  have hzero : ∀ x ∈ order0 ++ n :: rest, indeg0 x = 0 := kinv_indeg_zero hinv
  have hie : ∀ t, indeg0 t = (inCnt edges t : Int) - (srcCnt edges order0 t : Int) :=
    hinv.indeg_eq
  have hmemk : ∀ x ∈ order0 ++ n :: rest, x ∈ pyKeys (nodeIds nodes) := hinv.mem_keys
  have hqsrc : ∀ x ∈ n :: rest, ∀ e ∈ edges, e.target = x → e.source ∈ order0 :=
    hinv.queue_src
  have hpos : ∀ x ∈ pyKeys (nodeIds nodes), x ∉ order0 → x ∉ n :: rest → 0 < indeg0 x :=
    hinv.pos
  have hord : OrderedOK edges order0 := hinv.ordered
  have hnodup0 : (order0 ++ n :: rest).Nodup := hinv.nodup
  have hnmem : n ∉ order0 := by
    have hd := List.disjoint_of_nodup_append hnodup0
    exact fun h => hd h (List.mem_cons_self n rest)
  have hfresh : ∀ x ∈ Δ, x ∉ order0 ∧ x ≠ n ∧ x ∉ rest := by
    intro x hx
    have h1x := (hchar x).1 hx
    refine ⟨?_, ?_, ?_⟩
    · intro hmem
      have := hzero x (List.mem_append_left _ hmem)
      omega
    · intro hmem
      have := hzero x (List.mem_append_right _ (by rw [hmem]; exact List.mem_cons_self n rest))
      omega
    · intro hmem
      have := hzero x (List.mem_append_right _ (List.mem_cons_of_mem n hmem))
      omega
  have hΔadj : ∀ x ∈ Δ, x ∈ adjOf edges n := by
    intro x hx
    have h1x := (hchar x).1 hx
    have : 0 < (adjOf edges n).count x := by omega
    exact List.count_pos_iff.mp this
  have hΔkeys : ∀ x ∈ Δ, x ∈ pyKeys (nodeIds nodes) := by
    intro x hx
    obtain ⟨e, he, hex⟩ := List.mem_map.mp (hΔadj x hx)
    rw [List.mem_filter] at he
    rw [mem_pyKeys]
    exact hex ▸ (EC e he.1).2
  rw [hs']
  refine ⟨⟨?_, ?_, ?_, ?_, ?_, ?_⟩, rfl, Δ, rfl⟩
  · -- nodup
    show ((order0 ++ [n]) ++ (rest ++ Δ)).Nodup
    rw [← List.append_assoc]
    have hbig : ((order0 ++ [n]) ++ rest).Nodup := by
      have heq : (order0 ++ [n]) ++ rest = order0 ++ n :: rest := by simp
      rw [heq]
      exact hnodup0
    refine hbig.append hndΔ ?_
    intro a ha haΔ
    obtain ⟨hx1, hx2, hx3⟩ := hfresh a haΔ
    rcases List.mem_append.mp ha with ha | ha
    · rcases List.mem_append.mp ha with ha | ha
      · exact hx1 ha
      · exact hx2 (List.mem_singleton.mp ha)
    · exact hx3 ha
  · -- mem_keys
    intro x hx
    rcases List.mem_append.mp hx with hx | hx
    · rcases List.mem_append.mp hx with hx | hx
      · exact hmemk x (List.mem_append_left _ hx)
      · rw [List.mem_singleton.mp hx]
        exact hmemk n (List.mem_append_right _ (List.mem_cons_self n rest))
    · rcases List.mem_append.mp hx with hx | hx
      · exact hmemk x (List.mem_append_right _ (List.mem_cons_of_mem n hx))
      · exact hΔkeys x hx
  · -- indeg_eq
    intro t
    show (stepNeighbors (adjOf edges n) rest indeg0).2 t = _
    rw [h1 t, hie t, srcCnt_snoc edges order0 n t hnmem, ← count_adjOf]
    push_cast
    ring
  · -- queue_src
    intro x hx
    rcases List.mem_append.mp hx with hx | hx
    · intro e he ht
      exact List.mem_append_left _
        (hqsrc x (List.mem_cons_of_mem n hx) e he ht)
    · have h1x := (hchar x).1 hx
      have hle : inCnt edges x ≤ srcCnt edges (order0 ++ [n]) x := by
        rw [srcCnt_snoc edges order0 n x hnmem, ← count_adjOf]
        have heq := hie x
        omega
      have heqc : srcCnt edges (order0 ++ [n]) x = inCnt edges x :=
        le_antisymm (srcCnt_le_inCnt _ _ _) hle
      exact srcCnt_eq_inCnt_rev _ _ _ heqc
  · -- pos
    intro x hxk hxo hxq
    have hxo0 : x ∉ order0 := fun h => hxo (List.mem_append_left _ h)
    have hxn : x ≠ n := fun h => hxo (List.mem_append_right _ (by rw [h]; simp))
    have hxr : x ∉ rest := fun h => hxq (List.mem_append_left _ h)
    have hxΔ : x ∉ Δ := fun h => hxq (List.mem_append_right _ h)
    have hpos0 : 0 < indeg0 x :=
      hpos x hxk hxo0 (by simp [hxn, hxr])
    show 0 < (stepNeighbors (adjOf edges n) rest indeg0).2 x
    rw [h1 x]
    by_contra hc
    push_neg at hc
    exact hxΔ ((hchar x).2 ⟨by omega, by omega⟩)
  · -- ordered
    exact orderedOK_snoc hord
      (hqsrc n (List.mem_cons_self n rest))

/-- Running the loop preserves the invariant, only ever extends
`order ++ queue` at the back, and — with fuel exceeding the number of
distinct ids minus the orders already emitted — drains the queue. -/
theorem kahnLoop_inv {nodes : List PyNode} {edges : List PyEdge}
    (EC : EdgesClosed nodes edges) :
    ∀ (fuel : Nat) (s : KState), KInv nodes edges s →
      KInv nodes edges (kahnLoop (adjOf edges) fuel s)
      ∧ (∃ ext, (kahnLoop (adjOf edges) fuel s).order ++
          (kahnLoop (adjOf edges) fuel s).queue = (s.order ++ s.queue) ++ ext)
      ∧ ((pyKeys (nodeIds nodes)).length < fuel + s.order.length →
          (kahnLoop (adjOf edges) fuel s).queue = []) := by
  intro fuel
  induction fuel with
  | zero =>
    intro s hinv
    refine ⟨hinv, ⟨[], by simp [kahnLoop]⟩, ?_⟩
    intro hlen
    exfalso
    have hle := nodup_subset_length hinv.nodup hinv.mem_keys
    rw [List.length_append] at hle
    omega
  | succ fuel ih =>
    intro s hinv
    by_cases hq : s.queue.isEmpty
    · have hid : kahnLoop (adjOf edges) (fuel + 1) s = s := by
        simp [kahnLoop, hq]
      rw [hid]
      exact ⟨hinv, ⟨[], by simp⟩, fun _ => List.isEmpty_iff.mp hq⟩
    · obtain ⟨n, rest, hqe⟩ : ∃ n rest, s.queue = n :: rest := by
        cases hcase : s.queue with
        | nil => rw [hcase] at hq; simp at hq
        | cons a l => exact ⟨a, l, rfl⟩
      have hred : kahnLoop (adjOf edges) (fuel + 1) s =
          kahnLoop (adjOf edges) fuel (kahnStep (adjOf edges) s) := by
        simp [kahnLoop, hq]
      obtain ⟨hinv', hord', Δ, hq'⟩ := kahnStep_inv EC s hinv n rest hqe
      obtain ⟨hinv'', ⟨ext, hext⟩, hfin⟩ := ih (kahnStep (adjOf edges) s) hinv'
      rw [hred]
      refine ⟨hinv'', ⟨Δ ++ ext, ?_⟩, ?_⟩
      · rw [hext, hord', hq', hqe]
        simp
      · intro hlen
        apply hfin
        rw [hord']
        rw [List.length_append]
        simp only [List.length_singleton]
        omega

/-- The initial Kahn state satisfies the invariant. -/
theorem kahnInit_inv (nodes : List PyNode) (edges : List PyEdge) :
    KInv nodes edges (kahnInit nodes edges) := by
  have hindeg : ∀ t, inDeg edges t = (inCnt edges t : Int) := fun _ => rfl
  have h1 : (([] : List String) ++
      (pyKeys (nodeIds nodes)).filter (fun k => inDeg edges k = 0)).Nodup := by
    rw [List.nil_append]
    exact (pyKeys_nodup _).filter _
  have h2 : ∀ x ∈ ([] : List String) ++
      (pyKeys (nodeIds nodes)).filter (fun k => inDeg edges k = 0),
      x ∈ pyKeys (nodeIds nodes) := by
    intro x hx
    rw [List.nil_append] at hx
    exact (List.mem_filter.mp hx).1
  have h3 : ∀ t, inDeg edges t =
      (inCnt edges t : Int) - (srcCnt edges [] t : Int) := by
    intro t
    have hsrc0 : srcCnt edges [] t = 0 := by
      unfold srcCnt
      simp
    rw [hindeg t, hsrc0]
    simp
  have h4 : ∀ x ∈ (pyKeys (nodeIds nodes)).filter (fun k => inDeg edges k = 0),
      ∀ e ∈ edges, e.target = x → e.source ∈ ([] : List String) := by
    intro x hx e he ht
    have hx0 : inDeg edges x = 0 := by
      have := (List.mem_filter.mp hx).2
      simpa using this
    have hcnt : inCnt edges x = 0 := by
      rw [hindeg x] at hx0
      exact_mod_cast hx0
    exfalso
    unfold inCnt at hcnt
    rw [List.length_eq_zero] at hcnt
    have hmem : e ∈ edges.filter (fun e => e.target = x) :=
      List.mem_filter.mpr ⟨he, by simp [ht]⟩
    rw [hcnt] at hmem
    cases hmem
  have h5 : ∀ x ∈ pyKeys (nodeIds nodes), x ∉ ([] : List String) →
      x ∉ (pyKeys (nodeIds nodes)).filter (fun k => inDeg edges k = 0) →
      0 < inDeg edges x := by
    intro x hxk _ hxq
    have hne : ¬ inDeg edges x = 0 := by
      intro h0
      exact hxq (List.mem_filter.mpr ⟨hxk, by simp [h0]⟩)
    have hge : (0 : Int) ≤ inDeg edges x := by
      rw [hindeg x]
      positivity
    omega
  have h6 : OrderedOK edges ([] : List String) := by
    intro o1 x o2 h
    exfalso
    have := congrArg List.length h
    simp only [List.length_nil, List.length_append, List.length_cons] at this
    omega
  exact ⟨h1, h2, h3, h4, h5, h6⟩

/-- The state `get_execution_order` ends in: it satisfies the invariant,
its queue is drained, its order is the returned list, and the initially
ready ids head that list. -/
theorem geo_final_state (nodes : List PyNode) (edges : List PyEdge)
    (EC : EdgesClosed nodes edges) :
    ∃ s : KState,
      s.order = get_execution_order nodes edges ∧ s.queue = [] ∧
      KInv nodes edges s ∧
      ∃ ext, s.order =
        (pyKeys (nodeIds nodes)).filter (fun k => inDeg edges k = 0) ++ ext := by
  obtain ⟨hinvF, ⟨ext, hext⟩, hfin⟩ :=
    kahnLoop_inv EC ((pyKeys (nodeIds nodes)).length + 1) (kahnInit nodes edges)
      (kahnInit_inv nodes edges)
  have hq : (kahnLoop (adjOf edges) ((pyKeys (nodeIds nodes)).length + 1)
      (kahnInit nodes edges)).queue = [] := by
    apply hfin
    have : (kahnInit nodes edges).order = ([] : List String) := rfl
    rw [this]
    simp
  refine ⟨kahnLoop (adjOf edges) ((pyKeys (nodeIds nodes)).length + 1)
    (kahnInit nodes edges), rfl, hq, hinvF, ext, ?_⟩
  have hinit : (kahnInit nodes edges).order ++ (kahnInit nodes edges).queue =
      (pyKeys (nodeIds nodes)).filter (fun k => inDeg edges k = 0) := rfl
  rw [hq, List.append_nil] at hext
  rw [hext, hinit]

/-- C3 (amended): ties are FIFO by the time a stage reached in-degree
zero, not globally by declaration order; in particular the stages whose
in-degree is zero in the initial graph are dequeued first, in declaration
order — they form a prefix of the returned order. -/
theorem initial_ready_stages_form_prefix (nodes : List PyNode) (edges : List PyEdge)
    (EC : EdgesClosed nodes edges) :
    (pyKeys (nodeIds nodes)).filter (fun k => inDeg edges k = 0) <+:
      get_execution_order nodes edges := by
  obtain ⟨s, hord, -, -, ext, hpre⟩ := geo_final_state nodes edges EC
  exact ⟨ext, by rw [← hord, hpre]⟩

/-- Witness for C3 (amended): the counterexample graph itself; `W` and
`V` are the initially ready stages and they head the order `[W, V, U]`
in declaration order. -/
theorem initial_ready_stages_form_prefix_witness :
    (pyKeys (nodeIds [⟨"U", [("type", "input")]⟩, ⟨"W", [("type", "input")]⟩,
        ⟨"V", [("type", "output")]⟩])).filter
        (fun k => inDeg [⟨"W", "U"⟩] k = 0) <+:
      get_execution_order [⟨"U", [("type", "input")]⟩, ⟨"W", [("type", "input")]⟩,
        ⟨"V", [("type", "output")]⟩] [⟨"W", "U"⟩] :=
  initial_ready_stages_form_prefix _ _ (by decide)

/-- A rank function that strictly increases along every edge certifies
acyclicity. -/
theorem acyclic_of_rank (edges : List PyEdge) (f : String → Nat)
    (hf : ∀ e ∈ edges, f e.source < f e.target) : Acyclic edges := by
  intro v hv
  have hmono : ∀ a b, Relation.TransGen (EdgeRel edges) a b → f a < f b := by
    intro a b h
    induction h with
    | single h =>
      obtain ⟨e, he, hs, ht⟩ := h
      rw [← hs, ← ht]
      exact hf e he
    | tail _ hstep ih =>
      obtain ⟨e, he, hs, ht⟩ := hstep
      have := hf e he
      rw [hs, ht] at this
      omega
  exact lt_irrefl _ (hmono v v hv)

/-- On an endpoint-closed acyclic edge set the edge relation is
well-founded (a finite graph with no directed cycle admits no infinite
descending chain). -/
theorem edgeRel_wf {nodes : List PyNode} {edges : List PyEdge}
    (EC : EdgesClosed nodes edges) (hA : Acyclic edges) :
    WellFounded (EdgeRel edges) := by
  have hsub : ∀ a b, EdgeRel edges a b → a ∈ nodeIds nodes ∧ b ∈ nodeIds nodes := by
    rintro a b ⟨e, he, hs, ht⟩
    exact ⟨hs ▸ (EC e he).1, ht ▸ (EC e he).2⟩
  have hwf' : WellFounded (fun a b : {x // x ∈ nodeIds nodes} =>
      EdgeRel edges a.1 b.1) := by
    have htg : WellFounded (Relation.TransGen
        (fun a b : {x // x ∈ nodeIds nodes} => EdgeRel edges a.1 b.1)) := by
      haveI : IsTrans {x // x ∈ nodeIds nodes} (Relation.TransGen
          (fun a b => EdgeRel edges a.1 b.1)) :=
        ⟨fun _ _ _ h1 h2 => h1.trans h2⟩
      haveI : IsIrrefl {x // x ∈ nodeIds nodes} (Relation.TransGen
          (fun a b => EdgeRel edges a.1 b.1)) := by
        refine ⟨fun a ha => hA a.1 ?_⟩
        exact Relation.TransGen.lift Subtype.val (fun _ _ h => h) ha
      exact Finite.wellFounded_of_trans_of_irrefl _
    have hsubrel : Subrelation
        (fun a b : {x // x ∈ nodeIds nodes} => EdgeRel edges a.1 b.1)
        (Relation.TransGen (fun a b : {x // x ∈ nodeIds nodes} => EdgeRel edges a.1 b.1)) :=
      fun h => Relation.TransGen.single h
    exact hsubrel.wf htg
  have hacc : ∀ (k : {x // x ∈ nodeIds nodes}), Acc (EdgeRel edges) k.1 := by
    intro k
    refine WellFounded.induction (C := fun k => Acc (EdgeRel edges) k.1) hwf' k ?_
    intro x ih
    refine Acc.intro x.1 ?_
    intro u hu
    exact ih ⟨u, (hsub u x.1 hu).1⟩ hu
  constructor
  intro v
  by_cases hv : v ∈ nodeIds nodes
  · exact hacc ⟨v, hv⟩
  · refine Acc.intro v ?_
    intro u hu
    exact absurd (hsub u v hu).2 hv

/-- C4: on an endpoint-closed acyclic graph, `get_execution_order`
returns a permutation of the full set of declared stage ids in which
every connection's source appears strictly before its target.  (The
returned order is moreover deterministic across repeated calls: the
embedding is a pure function of `nodes` and `edges`, and the Python dict
iteration it relies on is insertion-ordered.) -/
theorem execution_order_topological (nodes : List PyNode) (edges : List PyEdge)
    (EC : EdgesClosed nodes edges) (hA : Acyclic edges) :
    (get_execution_order nodes edges).Perm (pyKeys (nodeIds nodes))
    ∧ ∀ e ∈ edges, ∃ l1 l2,
        get_execution_order nodes edges = l1 ++ e.target :: l2 ∧ e.source ∈ l1 := by
  obtain ⟨s, hord, hq, hinv, -⟩ := geo_final_state nodes edges EC
  have hnodupF : s.order.Nodup := by
    have := hinv.nodup
    rw [hq, List.append_nil] at this
    exact this
  have hmemF : ∀ x ∈ s.order, x ∈ pyKeys (nodeIds nodes) := by
    intro x hx
    exact hinv.mem_keys x (by rw [hq, List.append_nil]; exact hx)
  have hcomplete : ∀ v, v ∈ pyKeys (nodeIds nodes) → v ∈ s.order := by
    intro v
    refine WellFounded.induction (C := fun v => v ∈ pyKeys (nodeIds nodes) → v ∈ s.order)
      (edgeRel_wf EC hA) v ?_
    intro x ih hxk
    by_contra hxF
    have hpos : 0 < s.indeg x := hinv.pos x hxk hxF (by rw [hq]; exact List.not_mem_nil x)
    have hall : ∀ e ∈ edges, e.target = x → e.source ∈ s.order := by
      intro e he ht
      refine ih e.source ⟨e, he, rfl, ht⟩ ?_
      rw [mem_pyKeys]
      exact (EC e he).1
    have := hinv.indeg_eq x
    rw [srcCnt_eq_inCnt edges s.order x hall] at this
    omega
  constructor
  · rw [← hord]
    exact (List.perm_ext_iff_of_nodup hnodupF (pyKeys_nodup _)).mpr
      (fun a => ⟨hmemF a, hcomplete a⟩)
  · intro e he
    have htF : e.target ∈ s.order := by
      apply hcomplete
      rw [mem_pyKeys]
      exact (EC e he).2
    obtain ⟨l1, l2, hdec⟩ := List.append_of_mem htF
    refine ⟨l1, l2, by rw [← hord, hdec], ?_⟩
    exact hinv.ordered l1 e.target l2 hdec e he rfl

/-- Witness for C4: the acyclic two-stage graph `a → b`. -/
theorem execution_order_topological_witness :
    (get_execution_order [⟨"a", [("type", "input")]⟩, ⟨"b", [("type", "output")]⟩]
        [⟨"a", "b"⟩]).Perm
      (pyKeys (nodeIds [⟨"a", [("type", "input")]⟩, ⟨"b", [("type", "output")]⟩]))
    ∧ ∀ e ∈ [(⟨"a", "b"⟩ : PyEdge)], ∃ l1 l2,
        get_execution_order [⟨"a", [("type", "input")]⟩, ⟨"b", [("type", "output")]⟩]
          [⟨"a", "b"⟩] = l1 ++ e.target :: l2 ∧ e.source ∈ l1 :=
  execution_order_topological
    [⟨"a", [("type", "input")]⟩, ⟨"b", [("type", "output")]⟩] [⟨"a", "b"⟩]
    (by decide)
    (acyclic_of_rank _ (fun s => if s = "a" then 0 else 1) (by decide))

/-- C5: a graph whose connection set contains a directed cycle among the
declared ids yields a strictly-shorter-than-N order: the stages on the
cycle never reach in-degree zero and are silently omitted (and the
embedded function is total — no error is raised on cyclic input). -/
theorem cyclic_graph_order_shorter (nodes : List PyNode) (edges : List PyEdge)
    (EC : EdgesClosed nodes edges)
    (hC : ∃ v, Relation.TransGen (EdgeRel edges) v v) :
    (get_execution_order nodes edges).length < nodes.length := by
  obtain ⟨v, hv⟩ := hC
  obtain ⟨s, hord, hq, hinv, -⟩ := geo_final_state nodes edges EC
  have hnodupF : s.order.Nodup := by
    have := hinv.nodup
    rw [hq, List.append_nil] at this
    exact this
  have hmemF : ∀ x ∈ s.order, x ∈ pyKeys (nodeIds nodes) := by
    intro x hx
    exact hinv.mem_keys x (by rw [hq, List.append_nil]; exact hx)
  have hpred : ∀ x, (Relation.TransGen (EdgeRel edges) v x ∧
      Relation.TransGen (EdgeRel edges) x v) →
      ∃ u, EdgeRel edges u x ∧ (Relation.TransGen (EdgeRel edges) v u ∧
        Relation.TransGen (EdgeRel edges) u v) := by
    intro x hx
    obtain ⟨u, hvu, hux⟩ := (Relation.TransGen.tail'_iff).mp hx.1
    rcases Relation.reflTransGen_iff_eq_or_transGen.mp hvu with heq | htg
    · exact ⟨u, hux, by rw [heq]; exact ⟨hv, hv⟩⟩
    · exact ⟨u, hux, htg, (Relation.TransGen.single hux).trans hx.2⟩
  have hkey : ∀ n (o1 : List String) x o2, o1.length = n →
      s.order = o1 ++ x :: o2 →
      ¬ (Relation.TransGen (EdgeRel edges) v x ∧
          Relation.TransGen (EdgeRel edges) x v) := by
    intro n
    induction n using Nat.strong_induction_on with
    | _ n ih =>
      intro o1 x o2 hlen hF hCx
      obtain ⟨u, hux, hCu⟩ := hpred x hCx
      obtain ⟨e, he, hs, ht⟩ := hux
      have hu1 : e.source ∈ o1 := hinv.ordered o1 x o2 hF e he ht
      rw [hs] at hu1
      obtain ⟨a, b, hab⟩ := List.append_of_mem hu1
      have hF' : s.order = a ++ u :: (b ++ x :: o2) := by
        rw [hF, hab]
        simp
      have hlt : a.length < n := by
        rw [← hlen, hab]
        simp only [List.length_append, List.length_cons]
        omega
      exact ih a.length hlt a u _ rfl hF' hCu
  have hvnotF : v ∉ s.order := by
    intro hvF
    obtain ⟨l1, l2, hdec⟩ := List.append_of_mem hvF
    exact hkey l1.length l1 v l2 rfl hdec ⟨hv, hv⟩
  have hvkeys : v ∈ pyKeys (nodeIds nodes) := by
    obtain ⟨u, hvu, -⟩ := (Relation.TransGen.head'_iff).mp hv
    obtain ⟨e, he, hs, -⟩ := hvu
    rw [mem_pyKeys]
    exact hs ▸ (EC e he).1
  have hlen : s.order.length + 1 ≤ (pyKeys (nodeIds nodes)).length := by
    have hnodupvF : (v :: s.order).Nodup := List.Nodup.cons hvnotF hnodupF
    have hsubvF : ∀ x ∈ v :: s.order, x ∈ pyKeys (nodeIds nodes) := by
      intro x hx
      rcases List.mem_cons.mp hx with rfl | hx
      · exact hvkeys
      · exact hmemF x hx
    have := nodup_subset_length hnodupvF hsubvF
    simpa using this
  have hkeys_le : (pyKeys (nodeIds nodes)).length ≤ nodes.length := by
    have := pyKeys_length_le (nodeIds nodes)
    rw [nodeIds, List.length_map] at this
    exact this
  rw [← hord]
  omega

/-- Witness for C5: the two-stage cycle `a → b → a`. -/
theorem cyclic_graph_order_shorter_witness :
    (get_execution_order [⟨"a", [("type", "input")]⟩, ⟨"b", [("type", "output")]⟩]
      [⟨"a", "b"⟩, ⟨"b", "a"⟩]).length <
      ([⟨"a", [("type", "input")]⟩, ⟨"b", [("type", "output")]⟩] : List PyNode).length :=
  cyclic_graph_order_shorter
    [⟨"a", [("type", "input")]⟩, ⟨"b", [("type", "output")]⟩]
    [⟨"a", "b"⟩, ⟨"b", "a"⟩]
    (by decide)
    ⟨"a", Relation.TransGen.head
      ⟨⟨"a", "b"⟩, by simp, rfl, rfl⟩
      (Relation.TransGen.single ⟨⟨"b", "a"⟩, by simp, rfl, rfl⟩)⟩

/-- Adjacency membership is the edge relation. -/
theorem mem_adjOf {edges : List PyEdge} {s x : String} :
    x ∈ adjOf edges s ↔ EdgeRel edges s x := by
  unfold adjOf EdgeRel
  simp only [List.mem_map, List.mem_filter, decide_eq_true_eq]
  constructor
  · rintro ⟨e, ⟨he, hs⟩, ht⟩
    exact ⟨e, he, hs, ht⟩
  · rintro ⟨e, he, hs, ht⟩
    exact ⟨e, ⟨he, hs⟩, ht⟩

/-- The neighbor fold only grows the visited set (given the recursive
call does). -/
theorem cycleFold_grow
    (rec : String → List String → List String → Option (Bool × List String))
    (hrec : ∀ u vis rs b vis', rec u vis rs = some (b, vis') → ∀ x ∈ vis, x ∈ vis') :
    ∀ nbs vis rs b vis', cycleFold rec nbs vis rs = some (b, vis') →
      ∀ x ∈ vis, x ∈ vis' := by
  intro nbs
  induction nbs with
  | nil =>
    intro vis rs b vis' h
    simp only [cycleFold, Option.some.injEq, Prod.mk.injEq] at h
    rw [← h.2]
    exact fun x hx => hx
  | cons nb nbs ih =>
    intro vis rs b vis' h
    simp only [cycleFold] at h
    by_cases h1 : nb ∈ vis
    · rw [if_pos h1] at h
      by_cases h2 : nb ∈ rs
      · rw [if_pos h2] at h
        injection h with h
        injection h with _ h
        rw [← h]
        exact fun x hx => hx
      · rw [if_neg h2] at h
        exact ih vis rs b vis' h
    · rw [if_neg h1] at h
      cases hr : rec nb vis rs with
      | none => rw [hr] at h; cases h
      | some p =>
        rw [hr] at h
        obtain ⟨pb, pvis⟩ := p
        cases pb with
        | true =>
          simp only [Option.some.injEq, Prod.mk.injEq] at h
          intro x hx
          rw [← h.2]
          exact hrec nb vis rs true pvis hr x hx
        | false =>
          intro x hx
          exact ih pvis rs b vis' h x (hrec nb vis rs false pvis hr x hx)

/-- `has_cycle` only grows the visited set, and visits its argument. -/
theorem hasCycle_grow {edges : List PyEdge} :
    ∀ (fuel : Nat) (u : String) (vis rs : List String) (b : Bool) (vis' : List String),
      hasCycle (adjOf edges) fuel u vis rs = some (b, vis') →
      (∀ x ∈ vis, x ∈ vis') ∧ u ∈ vis' := by
  intro fuel
  induction fuel with
  | zero => intro u vis rs b vis' h; cases h
  | succ fuel ih =>
    intro u vis rs b vis' h
    simp only [hasCycle] at h
    have hgrow := cycleFold_grow (hasCycle (adjOf edges) fuel)
      (fun u₀ vis₀ rs₀ b₀ vis₀' h₀ => ((ih u₀ vis₀ rs₀ b₀ vis₀') h₀).1)
      (adjOf edges u) (u :: vis) (u :: rs) b vis' h
    exact ⟨fun x hx => hgrow x (List.mem_cons_of_mem u hx),
      hgrow u (List.mem_cons_self u vis)⟩

/-- Monotonicity of the unvisited count. -/
theorem unvisited_mono (univ vis vis' : List String)
    (h : ∀ x ∈ vis, x ∈ vis') :
    (univ.filter (fun x => x ∉ vis')).length ≤
      (univ.filter (fun x => x ∉ vis)).length :=
  (List.monotone_filter_right univ
    (fun x hx => by
      simp only [decide_eq_true_eq] at hx ⊢
      exact fun hmem => hx (h x hmem))).length_le

/-- The unvisited count drops strictly when a fresh member of the
universe is visited. -/
theorem unvisited_strict (univ vis : List String) (u : String)
    (hu : u ∈ univ) (hnv : u ∉ vis) :
    (univ.filter (fun x => x ∉ (u :: vis))).length <
      (univ.filter (fun x => x ∉ vis)).length := by
  have hsub : List.Sublist (univ.filter (fun x => x ∉ (u :: vis)))
      (univ.filter (fun x => x ∉ vis)) :=
    List.monotone_filter_right univ (fun x hx => by
      simp only [decide_eq_true_eq, List.mem_cons] at hx ⊢
      exact fun hmem => hx (Or.inr hmem))
  rcases lt_or_eq_of_le hsub.length_le with h | h
  · exact h
  · exfalso
    have heq := hsub.eq_of_length h
    have hu1 : u ∈ univ.filter (fun x => x ∉ vis) := by
      rw [List.mem_filter]
      exact ⟨hu, by simpa using hnv⟩
    rw [← heq, List.mem_filter] at hu1
    simp at hu1

/-- With fuel at least the number of unvisited universe members, the
depth-first search cannot run out: every recursive call strictly shrinks
the unvisited part of the universe. -/
theorem hasCycle_fuel {edges : List PyEdge} (univ : List String)
    (hadj : ∀ s x, x ∈ adjOf edges s → x ∈ univ) :
    ∀ (fuel : Nat) (u : String) (vis rs : List String),
      u ∈ univ → u ∉ vis →
      (univ.filter (fun x => x ∉ vis)).length ≤ fuel →
      (hasCycle (adjOf edges) fuel u vis rs).isSome = true := by
  intro fuel
  induction fuel with
  | zero =>
    intro u vis rs hu hnv hle
    exfalso
    have hmem : u ∈ univ.filter (fun x => x ∉ vis) :=
      List.mem_filter.mpr ⟨hu, by simpa using hnv⟩
    have hne : univ.filter (fun x => x ∉ vis) ≠ [] := List.ne_nil_of_mem hmem
    have := List.length_pos.mpr hne
    omega
  | succ fuel ih =>
    intro u vis rs hu hnv hle
    simp only [hasCycle]
    have hmeas : (univ.filter (fun x => x ∉ (u :: vis))).length ≤ fuel := by
      have := unvisited_strict univ vis u hu hnv
      omega
    have hfold : ∀ (nbs vis1 rs1 : List String),
        (∀ x ∈ nbs, x ∈ univ) →
        (univ.filter (fun x => x ∉ vis1)).length ≤ fuel →
        (cycleFold (hasCycle (adjOf edges) fuel) nbs vis1 rs1).isSome = true := by
      intro nbs
      induction nbs with
      | nil =>
        intro vis1 rs1 _ _
        simp [cycleFold]
      | cons nb nbs ihn =>
        intro vis1 rs1 hmem hle1
        simp only [cycleFold]
        by_cases h1 : nb ∈ vis1
        · rw [if_pos h1]
          by_cases h2 : nb ∈ rs1
          · rw [if_pos h2]
            simp
          · rw [if_neg h2]
            exact ihn vis1 rs1 (fun x hx => hmem x (List.mem_cons_of_mem _ hx)) hle1
        · rw [if_neg h1]
          have hrec := ih nb vis1 rs1 (hmem nb (List.mem_cons_self nb nbs)) h1 hle1
          cases hr : hasCycle (adjOf edges) fuel nb vis1 rs1 with
          | none =>
            rw [hr] at hrec
            simp at hrec
          | some p =>
            obtain ⟨pb, pvis⟩ := p
            cases pb with
            | true => simp
            | false =>
              have hgrow := (hasCycle_grow fuel nb vis1 rs1 false pvis hr).1
              exact ihn pvis rs1 (fun x hx => hmem x (List.mem_cons_of_mem _ hx))
                (le_trans (unvisited_mono univ vis1 pvis hgrow) hle1)
    exact hfold (adjOf edges u) (u :: vis) (u :: rs) (fun x hx => hadj u x hx) hmeas

/-- Soundness of the DFS: a `True` result means a back-edge into the
recursion stack was found, and every stack entry reaches the current
node, so the graph really has a directed cycle. -/
theorem hasCycle_sound {edges : List PyEdge} :
    ∀ (fuel : Nat) (u : String) (vis rs vis' : List String),
      hasCycle (adjOf edges) fuel u vis rs = some (true, vis') →
      (∀ x ∈ rs, Relation.ReflTransGen (EdgeRel edges) x u) →
      ∃ z, Relation.TransGen (EdgeRel edges) z z := by
  intro fuel
  induction fuel with
  | zero => intro u vis rs vis' h; cases h
  | succ fuel ih =>
    intro u vis rs vis' h hrs
    simp only [hasCycle] at h
    have hfold : ∀ (nbs vis1 vis2 : List String),
        (∀ nb ∈ nbs, EdgeRel edges u nb) →
        cycleFold (hasCycle (adjOf edges) fuel) nbs vis1 (u :: rs) = some (true, vis2) →
        ∃ z, Relation.TransGen (EdgeRel edges) z z := by
      intro nbs
      induction nbs with
      | nil =>
        intro vis1 vis2 _ h0
        simp [cycleFold] at h0
      | cons nb nbs ihn =>
        intro vis1 vis2 hmem h0
        simp only [cycleFold] at h0
        by_cases h1 : nb ∈ vis1
        · rw [if_pos h1] at h0
          by_cases h2 : nb ∈ u :: rs
          · have hnbu : Relation.ReflTransGen (EdgeRel edges) nb u := by
              rcases List.mem_cons.mp h2 with he | h2
              · rw [he]
              · exact hrs nb h2
            exact ⟨nb, Relation.TransGen.tail' hnbu
              (hmem nb (List.mem_cons_self nb nbs))⟩
          · rw [if_neg h2] at h0
            exact ihn vis1 vis2 (fun x hx => hmem x (List.mem_cons_of_mem _ hx)) h0
        · rw [if_neg h1] at h0
          cases hr : hasCycle (adjOf edges) fuel nb vis1 (u :: rs) with
          | none => rw [hr] at h0; cases h0
          | some p =>
            obtain ⟨pb, pvis⟩ := p
            rw [hr] at h0
            cases pb with
            | true =>
              apply ih nb vis1 (u :: rs) pvis hr
              intro x hx
              have hxu : Relation.ReflTransGen (EdgeRel edges) x u := by
                rcases List.mem_cons.mp hx with he | hx
                · rw [he]
                · exact hrs x hx
              exact hxu.tail (hmem nb (List.mem_cons_self nb nbs))
            | false =>
              exact ihn pvis vis2 (fun x hx => hmem x (List.mem_cons_of_mem _ hx)) h0
    exact hfold (adjOf edges u) (u :: vis) vis' (fun nb hnb => mem_adjOf.mp hnb) h

/-- Soundness of the root loop: a `False` overall answer exhibits a
cycle. -/
theorem cycleRoots_sound {edges : List PyEdge} (fuel : Nat) :
    ∀ (ks vis : List String),
      cycleRoots (adjOf edges) fuel ks vis = some false →
      ∃ z, Relation.TransGen (EdgeRel edges) z z := by
  intro ks
  induction ks with
  | nil => intro vis h; simp [cycleRoots] at h
  | cons k ks ihk =>
    intro vis h
    simp only [cycleRoots] at h
    by_cases h1 : k ∈ vis
    · rw [if_pos h1] at h
      exact ihk vis h
    · rw [if_neg h1] at h
      cases hr : hasCycle (adjOf edges) fuel k vis [] with
      | none => rw [hr] at h; cases h
      | some p =>
        obtain ⟨pb, pvis⟩ := p
        rw [hr] at h
        cases pb with
        | true => exact hasCycle_sound fuel k vis [] pvis hr (by simp)
        | false => exact ihk pvis h

/-- Finished nodes are closed under reachability. -/
theorem dfsinv_rtg {edges : List PyEdge} {vis rs : List String}
    (h : DFSInv edges vis rs) :
    ∀ x, x ∈ vis → x ∉ rs → ∀ z, Relation.ReflTransGen (EdgeRel edges) x z →
      z ∈ vis ∧ z ∉ rs := by
  intro x hx hxr z hz
  induction hz with
  | refl => exact ⟨hx, hxr⟩
  | tail _ hlast ih =>
    obtain ⟨hb, hbr⟩ := ih
    exact h.closed _ hb hbr _ hlast

/-- Completeness invariant of the DFS: a `False` return finishes the
current node — the visited set only grows, the invariant is maintained
for the caller's stack, and in particular no cycle passes through any
newly finished node. -/
theorem hasCycle_complete {edges : List PyEdge} :
    ∀ (fuel : Nat) (u : String) (vis rs vis' : List String),
      hasCycle (adjOf edges) fuel u vis rs = some (false, vis') →
      u ∉ vis → DFSInv edges vis rs →
      DFSInv edges vis' rs ∧ (∀ x ∈ vis, x ∈ vis') ∧ u ∈ vis' := by
  intro fuel
  induction fuel with
  | zero => intro u vis rs vis' h; cases h
  | succ fuel ih =>
    intro u vis rs vis' h hnv hinv
    simp only [hasCycle] at h
    have hinv1 : DFSInv edges (u :: vis) (u :: rs) := by
      refine ⟨?_, ?_, ?_⟩
      · intro x hx
        rcases List.mem_cons.mp hx with he | hx
        · rw [he]; exact List.mem_cons_self u vis
        · exact List.mem_cons_of_mem _ (hinv.rs_vis x hx)
      · intro x hx hxr y hy
        have hxu : x ≠ u := fun he => hxr (he ▸ List.mem_cons_self u rs)
        have hx' : x ∈ vis := (List.mem_cons.mp hx).resolve_left hxu
        have hxr' : x ∉ rs := fun hr => hxr (List.mem_cons_of_mem _ hr)
        obtain ⟨hyv, hyr⟩ := hinv.closed x hx' hxr' y hy
        have hyu : y ≠ u := fun he => hnv (he ▸ hyv)
        refine ⟨List.mem_cons_of_mem _ hyv, ?_⟩
        intro hyc
        rcases List.mem_cons.mp hyc with he | hyc
        · exact hyu he
        · exact hyr hyc
      · intro x hx hxr
        have hxu : x ≠ u := fun he => hxr (he ▸ List.mem_cons_self u rs)
        have hx' : x ∈ vis := (List.mem_cons.mp hx).resolve_left hxu
        exact hinv.nocyc x hx' (fun hr => hxr (List.mem_cons_of_mem _ hr))
    have hfold : ∀ (nbs vis1 vis2 : List String),
        cycleFold (hasCycle (adjOf edges) fuel) nbs vis1 (u :: rs) = some (false, vis2) →
        DFSInv edges vis1 (u :: rs) →
        DFSInv edges vis2 (u :: rs) ∧ (∀ x ∈ vis1, x ∈ vis2) ∧
          (∀ nb ∈ nbs, nb ∈ vis2 ∧ nb ∉ u :: rs) := by
      intro nbs
      induction nbs with
      | nil =>
        intro vis1 vis2 h0 hinvc
        simp only [cycleFold, Option.some.injEq, Prod.mk.injEq] at h0
        rw [← h0.2]
        exact ⟨hinvc, fun x hx => hx, by simp⟩
      | cons nb nbs ihn =>
        intro vis1 vis2 h0 hinvc
        simp only [cycleFold] at h0
        by_cases h1 : nb ∈ vis1
        · rw [if_pos h1] at h0
          by_cases h2 : nb ∈ u :: rs
          · rw [if_pos h2] at h0
            simp at h0
          · rw [if_neg h2] at h0
            obtain ⟨ha, hb, hc⟩ := ihn vis1 vis2 h0 hinvc
            refine ⟨ha, hb, ?_⟩
            intro x hx
            rcases List.mem_cons.mp hx with he | hx
            · rw [he]
              exact ⟨hb nb h1, h2⟩
            · exact hc x hx
        · rw [if_neg h1] at h0
          cases hr : hasCycle (adjOf edges) fuel nb vis1 (u :: rs) with
          | none => rw [hr] at h0; cases h0
          | some p =>
            obtain ⟨pb, pvis⟩ := p
            rw [hr] at h0
            cases pb with
            | true => simp at h0
            | false =>
              obtain ⟨hainv, hagrow, hamem⟩ := ih nb vis1 (u :: rs) pvis hr h1 hinvc
              obtain ⟨hbinv, hbgrow, hbmem⟩ := ihn pvis vis2 h0 hainv
              have hnbrs : nb ∉ u :: rs := fun hc => h1 (hinvc.rs_vis nb hc)
              refine ⟨hbinv, fun x hx => hbgrow x (hagrow x hx), ?_⟩
              intro x hx
              rcases List.mem_cons.mp hx with he | hx
              · rw [he]
                exact ⟨hbgrow nb hamem, hnbrs⟩
              · exact hbmem x hx
    obtain ⟨hinv2, hgrow2, hmem2⟩ := hfold (adjOf edges u) (u :: vis) vis' h hinv1
    have hu' : u ∈ vis' := hgrow2 u (List.mem_cons_self u vis)
    refine ⟨⟨?_, ?_, ?_⟩, fun x hx => hgrow2 x (List.mem_cons_of_mem _ hx), hu'⟩
    · intro x hx
      exact hinv2.rs_vis x (List.mem_cons_of_mem _ hx)
    · intro x hx hxr y hy
      by_cases hxu : x = u
      · have hy' : EdgeRel edges u y := hxu ▸ hy
        have hmy := hmem2 y (mem_adjOf.mpr hy')
        exact ⟨hmy.1, fun hyr => hmy.2 (List.mem_cons_of_mem _ hyr)⟩
      · have hxur : x ∉ u :: rs := by
          intro hc
          rcases List.mem_cons.mp hc with he | hc
          · exact hxu he
          · exact hxr hc
        obtain ⟨hyv, hyr⟩ := hinv2.closed x hx hxur y hy
        exact ⟨hyv, fun hc => hyr (List.mem_cons_of_mem _ hc)⟩
    · intro x hx hxr
      by_cases hxu : x = u
      · intro hcyc
        rw [hxu] at hcyc
        obtain ⟨y, hxy, hyx⟩ := (Relation.TransGen.head'_iff).mp hcyc
        have hy2 := hmem2 y (mem_adjOf.mpr hxy)
        have hfin := dfsinv_rtg hinv2 y hy2.1 hy2.2 u hyx
        exact hfin.2 (List.mem_cons_self u rs)
      · have hxur : x ∉ u :: rs := by
          intro hc
          rcases List.mem_cons.mp hc with he | hc
          · exact hxu he
          · exact hxr hc
        exact hinv2.nocyc x hx hxur

/-- Completeness of the root loop: a `True` overall answer finishes every
root, with the invariant holding at an empty stack. -/
theorem cycleRoots_complete {edges : List PyEdge} (fuel : Nat) :
    ∀ (ks vis : List String),
      cycleRoots (adjOf edges) fuel ks vis = some true →
      DFSInv edges vis [] →
      ∃ visF, DFSInv edges visF [] ∧ (∀ x ∈ vis, x ∈ visF) ∧ ∀ k ∈ ks, k ∈ visF := by
  intro ks
  induction ks with
  | nil =>
    intro vis _ hinv
    exact ⟨vis, hinv, fun x hx => hx, by simp⟩
  | cons k ks ihk =>
    intro vis h hinv
    simp only [cycleRoots] at h
    by_cases h1 : k ∈ vis
    · rw [if_pos h1] at h
      obtain ⟨visF, hinvF, hgrow, hks⟩ := ihk vis h hinv
      refine ⟨visF, hinvF, hgrow, ?_⟩
      intro x hx
      rcases List.mem_cons.mp hx with he | hx
      · rw [he]; exact hgrow k h1
      · exact hks x hx
    · rw [if_neg h1] at h
      cases hr : hasCycle (adjOf edges) fuel k vis [] with
      | none => rw [hr] at h; cases h
      | some p =>
        obtain ⟨pb, pvis⟩ := p
        rw [hr] at h
        cases pb with
        | true => simp at h
        | false =>
          obtain ⟨hinv1, hgrow1, hk1⟩ := hasCycle_complete fuel k vis [] pvis hr h1 hinv
          obtain ⟨visF, hinvF, hgrow, hks⟩ := ihk pvis h hinv1
          refine ⟨visF, hinvF, fun x hx => hgrow x (hgrow1 x hx), ?_⟩
          intro x hx
          rcases List.mem_cons.mp hx with he | hx
          · rw [he]; exact hgrow k hk1
          · exact hks x hx

/-- The root loop, run with the fuel `check_for_cycles` chooses, always
produces an answer. -/
theorem cycleRoots_isSome {edges : List PyEdge} (univD : List String)
    (hadj : ∀ s x, x ∈ adjOf edges s → x ∈ univD) :
    ∀ (ks vis : List String), (∀ k ∈ ks, k ∈ univD) →
      (cycleRoots (adjOf edges) (univD.length + 1) ks vis).isSome = true := by
  intro ks
  induction ks with
  | nil => intro vis _; simp [cycleRoots]
  | cons k ks ihk =>
    intro vis hks
    simp only [cycleRoots]
    by_cases h1 : k ∈ vis
    · rw [if_pos h1]
      exact ihk vis (fun x hx => hks x (List.mem_cons_of_mem _ hx))
    · rw [if_neg h1]
      have hsome := hasCycle_fuel univD hadj (univD.length + 1) k vis []
        (hks k (List.mem_cons_self k ks)) h1
        (le_trans (List.length_filter_le _ _) (Nat.le_succ _))
      cases hr : hasCycle (adjOf edges) (univD.length + 1) k vis [] with
      | none => rw [hr] at hsome; simp at hsome
      | some p =>
        obtain ⟨pb, pvis⟩ := p
        cases pb with
        | true => simp
        | false => exact ihk pvis (fun x hx => hks x (List.mem_cons_of_mem _ hx))

/-- `_check_for_cycles` answers exactly acyclicity, on endpoint-closed
graphs. -/
theorem check_for_cycles_iff (nodes : List PyNode) (edges : List PyEdge)
    (EC : EdgesClosed nodes edges) :
    (check_for_cycles nodes edges = (true, "") ↔ Acyclic edges)
    ∧ (¬ Acyclic edges →
        check_for_cycles nodes edges = (false, "Workflow contains a cycle")) := by
  have hadj : ∀ s x, x ∈ adjOf edges s →
      x ∈ (pyKeys (nodeIds nodes) ++ edges.map (·.target)).dedup := by
    intro s x hx
    rw [List.mem_dedup, List.mem_append]
    refine Or.inr ?_
    obtain ⟨e, he, -, ht⟩ := mem_adjOf.mp hx
    exact List.mem_map.mpr ⟨e, he, ht⟩
  have hks : ∀ k ∈ pyKeys (nodeIds nodes),
      k ∈ (pyKeys (nodeIds nodes) ++ edges.map (·.target)).dedup := by
    intro k hk
    rw [List.mem_dedup, List.mem_append]
    exact Or.inl hk
  have hsome := cycleRoots_isSome
    ((pyKeys (nodeIds nodes) ++ edges.map (·.target)).dedup) hadj
    (pyKeys (nodeIds nodes)) [] hks
  have hmain : check_for_cycles nodes edges = (true, "") ↔
      cycleRoots (adjOf edges)
        ((pyKeys (nodeIds nodes) ++ edges.map (·.target)).dedup.length + 1)
        (pyKeys (nodeIds nodes)) [] = some true := by
    unfold check_for_cycles
    cases hr : cycleRoots (adjOf edges)
        ((pyKeys (nodeIds nodes) ++ edges.map (·.target)).dedup.length + 1)
        (pyKeys (nodeIds nodes)) [] with
    | none => rw [hr] at hsome; simp at hsome
    | some b =>
      cases b with
      | true => simp [hr]
      | false => simp [hr]
  have hacy : cycleRoots (adjOf edges)
      ((pyKeys (nodeIds nodes) ++ edges.map (·.target)).dedup.length + 1)
      (pyKeys (nodeIds nodes)) [] = some true ↔ Acyclic edges := by
    constructor
    · intro h v hv
      obtain ⟨visF, hinvF, -, hksF⟩ := cycleRoots_complete _ _ [] h
        ⟨by simp, by simp, by simp⟩
      obtain ⟨y, hvy, -⟩ := (Relation.TransGen.head'_iff).mp hv
      obtain ⟨e, he, hs, -⟩ := hvy
      have hvk : v ∈ pyKeys (nodeIds nodes) := by
        rw [mem_pyKeys]
        exact hs ▸ (EC e he).1
      exact hinvF.nocyc v (hksF v hvk) (List.not_mem_nil v) hv
    · intro hA
      cases hr : cycleRoots (adjOf edges)
          ((pyKeys (nodeIds nodes) ++ edges.map (·.target)).dedup.length + 1)
          (pyKeys (nodeIds nodes)) [] with
      | none => rw [hr] at hsome; simp at hsome
      | some b =>
        cases b with
        | true => rfl
        | false =>
          obtain ⟨z, hz⟩ := cycleRoots_sound _ _ _ hr
          exact absurd hz (hA z)
  constructor
  · rw [hmain]
    exact hacy
  · intro hnA
    cases hr : cycleRoots (adjOf edges)
        ((pyKeys (nodeIds nodes) ++ edges.map (·.target)).dedup.length + 1)
        (pyKeys (nodeIds nodes)) [] with
    | none => rw [hr] at hsome; simp at hsome
    | some b =>
      cases b with
      | true => exact absurd (hacy.mp hr) hnA
      | false => simp [check_for_cycles, hr]

/-- A closed edge set passes the connection check. -/
theorem validate_connections_of_closed (nodes : List PyNode) :
    ∀ (edges : List PyEdge), EdgesClosed nodes edges →
      validate_connections nodes edges = (true, "") := by
  intro edges
  induction edges with
  | nil => intro _; rfl
  | cons e es ih =>
    intro EC
    have h1 := (EC e (List.mem_cons_self e es)).1
    have h2 := (EC e (List.mem_cons_self e es)).2
    simp only [validate_connections, h1, h2, if_neg, not_true_eq_false]
    rw [if_neg (by simp [h1]), if_neg (by simp [h2])]
    exact ih (fun e' he' => EC e' (List.mem_cons_of_mem _ he'))

/-- C6: on a graph with recognized node types and closed connection
endpoints, a directed cycle makes `validate` fail with exactly the
cycle message; and with the cycle gone (an acyclic edge set) — given the
required input/output classifications and stage parameters — `validate`
succeeds.  The check is the embedded recursive depth-first traversal
with a visited set and an on-stack set, iterating all unvisited roots
(so disconnected subgraphs are covered). -/
theorem validate_cycle_detection (nodes : List PyNode) (edges : List PyEdge) :
    (EdgesClosed nodes edges →
      validate_node_types nodes = (true, "") →
      (∃ v, Relation.TransGen (EdgeRel edges) v v) →
      validate nodes edges = (false, "Workflow contains a cycle"))
    ∧ (EdgesClosed nodes edges →
      validate_node_types nodes = (true, "") →
      Acyclic edges →
      validate_component_configs nodes = (true, "") →
      validate_workflow_flow nodes = (true, "") →
      nodes ≠ [] → (nodes.length ≤ 1 ∨ edges ≠ []) →
      validate nodes edges = (true, "Workflow is valid")) := by
  constructor
  · rintro EC htypes ⟨v, hv⟩
    obtain ⟨y, hvy, -⟩ := (Relation.TransGen.head'_iff).mp hv
    obtain ⟨e, he, hs, -⟩ := hvy
    have hnn : nodes ≠ [] := by
      intro h
      have := (EC e he).1
      rw [h] at this
      simp [nodeIds] at this
    have hne : edges ≠ [] := by
      intro h
      rw [h] at he
      cases he
    have hconn := validate_connections_of_closed nodes edges EC
    have hchk := (check_for_cycles_iff nodes edges EC).2 (fun hA => hA v hv)
    simp [validate, htypes, hconn, hchk, hnn, hne]
  · intro EC htypes hA hcfg hflow hnn hsmall
    have hconn := validate_connections_of_closed nodes edges EC
    have hchk := (check_for_cycles_iff nodes edges EC).1.mpr hA
    have hcond : ¬(nodes.length > 1 ∧ edges.isEmpty = true) := by
      rintro ⟨hgt, hemp⟩
      rcases hsmall with hle | hne
      · omega
      · exact hne (List.isEmpty_iff.mp hemp)
    simp only [validate, htypes, hconn, hchk, hcfg, hflow]
    simp [hnn, hcond]
    intro hgt
    rcases hsmall with hle | hne
    · omega
    · exact hne

/-- Witness for C6: the two-stage cycle `a ↔ b` fails with the cycle
message, and the same nodes with the back edge removed validate. -/
theorem validate_cycle_detection_witness :
    validate [⟨"a", [("type", "input")]⟩, ⟨"b", [("type", "output")]⟩]
        [⟨"a", "b"⟩, ⟨"b", "a"⟩] = (false, "Workflow contains a cycle")
    ∧ validate [⟨"a", [("type", "input")]⟩, ⟨"b", [("type", "output")]⟩]
        [⟨"a", "b"⟩] = (true, "Workflow is valid") :=
  ⟨(validate_cycle_detection
      [⟨"a", [("type", "input")]⟩, ⟨"b", [("type", "output")]⟩]
      [⟨"a", "b"⟩, ⟨"b", "a"⟩]).1
      (by decide) (by decide)
      ⟨"a", Relation.TransGen.head
        ⟨⟨"a", "b"⟩, by simp, rfl, rfl⟩
        (Relation.TransGen.single ⟨⟨"b", "a"⟩, by simp, rfl, rfl⟩)⟩,
   (validate_cycle_detection
      [⟨"a", [("type", "input")]⟩, ⟨"b", [("type", "output")]⟩]
      [⟨"a", "b"⟩]).2
      (by decide) (by decide)
      (acyclic_of_rank _ (fun s => if s = "a" then 0 else 1) (by decide))
      (by decide) (by decide) (by decide) (Or.inr (by decide))⟩

/-- Prepending brace-free text preserves the mix structure. -/
theorem mix_append_free {S : List (List Char)} {w s : List Char}
    (hw : ∀ ch ∈ w, ch ≠ lbrace) (hs : Mix S s) : Mix S (w ++ s) := by
  induction w with
  | nil => exact hs
  | cons ch w' ih =>
    exact Mix.chr ch _ (hw ch (List.mem_cons_self ch w'))
      (ih (fun x hx => hw x (List.mem_cons_of_mem _ hx)))

/-- A brace-headed pattern never matches inside brace-free text: the
scanner copies such text verbatim. -/
theorem replCharsF_skip {ps rep : List Char} :
    ∀ (w : List Char) (f : Nat) (s : List Char),
      (∀ ch ∈ w, ch ≠ lbrace) → (w ++ s).length ≤ f →
      replCharsF lbrace ps rep f (w ++ s) =
        w ++ replCharsF lbrace ps rep (f - w.length) s := by
  intro w
  induction w with
  | nil => intro f s _ _; simp
  | cons ch w' ih =>
    intro f s hw hf
    cases f with
    | zero =>
      exfalso
      simp only [List.length_append, List.length_cons] at hf
      omega
    | succ g =>
      have hch : ch ≠ lbrace := hw ch (List.mem_cons_self ch w')
      have hpref : (lbrace :: ps).isPrefixOf (ch :: (w' ++ s)) = false := by
        simp only [List.isPrefixOf, Bool.and_eq_false_iff]
        exact Or.inl (by simpa using fun he => hch he.symm)
      show replCharsF lbrace ps rep (g + 1) (ch :: (w' ++ s)) = _
      rw [replCharsF, if_neg (by simp [hpref])]
      rw [ih g s (fun x hx => hw x (List.mem_cons_of_mem _ hx))
        (by simp only [List.length_append, List.length_cons] at hf ⊢; omega)]
      simp [Nat.succ_sub_succ]

/-- One `replace` pass over a well-mixed string: occurrences of the
replaced token become (brace-free) replacement text, every other token is
copied verbatim, and no new token can arise — the result is well-mixed
over the remaining tokens. -/
theorem mix_replace {S : List (List Char)} {ps rep : List Char}
    (hps : ps ≠ [] ∧ lbrace ∉ ps)
    (hS : ∀ T' ∈ S, tokOK T' = true)
    (hsep : ∀ T' ∈ S, T' ≠ lbrace :: ps → T'.get? 1 ≠ (lbrace :: ps).get? 1)
    (hrep : ∀ ch ∈ rep, ch ≠ lbrace) :
    ∀ s, Mix S s → ∀ f, s.length ≤ f →
      Mix (S.filter (fun T' => T' ≠ lbrace :: ps)) (replCharsF lbrace ps rep f s) := by
  intro s hmix
  induction hmix with
  | nil =>
    intro f _
    cases f with
    | zero => exact Mix.nil
    | succ g => exact Mix.nil
  | chr c s' hc hmix' ih =>
    intro f hf
    cases f with
    | zero =>
      exfalso
      simp only [List.length_cons] at hf
      omega
    | succ g =>
      have hpref : (lbrace :: ps).isPrefixOf (c :: s') = false := by
        simp only [List.isPrefixOf, Bool.and_eq_false_iff]
        exact Or.inl (by simpa using fun he => hc he.symm)
      rw [replCharsF, if_neg (by simp [hpref])]
      exact Mix.chr c _ hc (ih g (by simp only [List.length_cons] at hf; omega))
  | tok T' s' hT' hmix' ih =>
    intro f hf
    by_cases heq : T' = lbrace :: ps
    · subst heq
      obtain ⟨q, ps'', hq⟩ : ∃ q ps'', ps = q :: ps'' := by
        cases ps with
        | nil => exact absurd rfl hps.1
        | cons q ps'' => exact ⟨q, ps'', rfl⟩
      cases f with
      | zero =>
        exfalso
        simp only [List.length_append, List.length_cons] at hf
        omega
      | succ g =>
        have hpref : (lbrace :: ps).isPrefixOf (lbrace :: (ps ++ s')) = true := by
          rw [List.isPrefixOf_iff_prefix]
          exact ⟨s', by simp⟩
        rw [List.cons_append, replCharsF, if_pos (by simp [hpref]), List.drop_left]
        refine mix_append_free hrep (ih g ?_)
        rw [hq] at hf
        simp only [List.length_append, List.length_cons] at hf
        omega
    · have htok := hS T' hT'
      obtain ⟨t, ht_ne, ht_free, hT'eq⟩ :
          ∃ t, t ≠ [] ∧ lbrace ∉ t ∧ T' = lbrace :: t := by
        cases T' with
        | nil => simp [tokOK] at htok
        | cons c₀ t =>
          simp only [tokOK, decide_eq_true_eq, Bool.and_eq_true] at htok
          refine ⟨t, ?_, ?_, ?_⟩
          · intro h0
            rw [h0] at htok
            simp at htok
          · exact htok.2.2
          · rw [htok.1]
      obtain ⟨q, ps'', hq⟩ : ∃ q ps'', ps = q :: ps'' := by
        cases ps with
        | nil => exact absurd rfl hps.1
        | cons q ps'' => exact ⟨q, ps'', rfl⟩
      obtain ⟨q', t'', hq'⟩ : ∃ q' t'', t = q' :: t'' := by
        cases t with
        | nil => exact absurd rfl ht_ne
        | cons q' t'' => exact ⟨q', t'', rfl⟩
      have hqq' : q' ≠ q := by
        have := hsep T' hT' heq
        rw [hT'eq, hq, hq'] at this
        simpa using this
      cases f with
      | zero =>
        exfalso
        rw [hT'eq] at hf
        simp only [List.length_append, List.length_cons] at hf
        omega
      | succ g =>
        have hpref : (lbrace :: ps).isPrefixOf (lbrace :: (t ++ s')) = false := by
          simp only [List.isPrefixOf, beq_self_eq_true, Bool.true_and]
          rw [hq, hq', List.cons_append, List.isPrefixOf]
          have hne : (q == q') = false := by
            simpa using Ne.symm hqq'
          simp [hne]
        rw [hT'eq, List.cons_append, replCharsF, if_neg (by simp [hpref])]
        have hlen : (t ++ s').length ≤ g := by
          rw [hT'eq] at hf
          simp only [List.length_append, List.length_cons] at hf ⊢
          omega
        rw [replCharsF_skip t g s' (fun ch hch he => ht_free (he ▸ hch)) hlen]
        have hmem : T' ∈ S.filter (fun T'' => T'' ≠ lbrace :: ps) :=
          List.mem_filter.mpr ⟨hT', by simpa using heq⟩
        have := Mix.tok T' _ hmem (ih (g - t.length) (by
          simp only [List.length_append] at hlen ⊢
          omega))
        rw [hT'eq] at this
        simpa using this

/-- A string mixed over no tokens is brace-free. -/
theorem mix_nil_brace_free {s : List Char} (h : Mix [] s) :
    ∀ ch ∈ s, ch ≠ lbrace := by
  induction h with
  | nil => intro ch hch; cases hch
  | chr c s' hc _ ih =>
    intro ch hch
    rcases List.mem_cons.mp hch with he | hch
    · rw [he]; exact hc
    · exact ih ch hch
  | tok T' s' hT' _ _ => cases hT'

/-- A pattern containing a left brace cannot occur in brace-free text. -/
theorem not_occurs_of_brace_free {pat s : List Char} (hpat : lbrace ∈ pat)
    (hs : ∀ ch ∈ s, ch ≠ lbrace) : ¬ Occurs pat s := by
  rintro ⟨l, r, rfl⟩
  exact hs lbrace (List.mem_append_left _ (List.mem_append_right _ hpat)) rfl

/-- A well-placed template is a mix over the four placeholder tokens. -/
theorem templOK_mix : ∀ (f : Nat) (t : List Char), t.length ≤ f →
    templOKF f t = true → Mix promptTokens t := by
  intro f
  induction f with
  | zero =>
    intro t hlen _
    cases t with
    | nil => exact Mix.nil
    | cons c s => simp at hlen
  | succ g ih =>
    intro t hlen htm
    cases t with
    | nil => exact Mix.nil
    | cons c s =>
      simp only [templOKF] at htm
      by_cases hc : c ≠ lbrace
      · rw [if_pos hc] at htm
        exact Mix.chr c s hc (ih s (by simp only [List.length_cons] at hlen; omega) htm)
      · rw [if_neg hc] at htm
        by_cases h1 : "\x7bquery\x7d".toList.isPrefixOf (c :: s) = true
        · rw [if_pos h1] at htm
          obtain ⟨rest, hrest⟩ := List.isPrefixOf_iff_prefix.mp h1
          have hdrop : (c :: s).drop "\x7bquery\x7d".toList.length = rest := by
            rw [← hrest, List.drop_left]
          rw [hdrop] at htm
          have hlr : rest.length ≤ g := by
            have := congrArg List.length hrest
            have hpos : 0 < ("\x7bquery\x7d" : String).toList.length := by decide
            simp only [List.length_append, List.length_cons] at this hlen
            omega
          have := Mix.tok "\x7bquery\x7d".toList rest (by simp [promptTokens])
            (ih rest hlr htm)
          rw [hrest] at this
          exact this
        · rw [if_neg h1] at htm
          by_cases h2 : "\x7bcontext\x7d".toList.isPrefixOf (c :: s) = true
          · rw [if_pos h2] at htm
            obtain ⟨rest, hrest⟩ := List.isPrefixOf_iff_prefix.mp h2
            have hdrop : (c :: s).drop "\x7bcontext\x7d".toList.length = rest := by
              rw [← hrest, List.drop_left]
            rw [hdrop] at htm
            have hlr : rest.length ≤ g := by
              have := congrArg List.length hrest
              have hpos : 0 < ("\x7bcontext\x7d" : String).toList.length := by decide
              simp only [List.length_append, List.length_cons] at this hlen
              omega
            have := Mix.tok "\x7bcontext\x7d".toList rest (by simp [promptTokens])
              (ih rest hlr htm)
            rw [hrest] at this
            exact this
          · rw [if_neg h2] at htm
            by_cases h3 : "\x7bUser Query\x7d".toList.isPrefixOf (c :: s) = true
            · rw [if_pos h3] at htm
              obtain ⟨rest, hrest⟩ := List.isPrefixOf_iff_prefix.mp h3
              have hdrop : (c :: s).drop "\x7bUser Query\x7d".toList.length = rest := by
                rw [← hrest, List.drop_left]
              rw [hdrop] at htm
              have hlr : rest.length ≤ g := by
                have := congrArg List.length hrest
                have hpos : 0 < ("\x7bUser Query\x7d" : String).toList.length := by decide
                simp only [List.length_append, List.length_cons] at this hlen
                omega
              have := Mix.tok "\x7bUser Query\x7d".toList rest (by simp [promptTokens])
                (ih rest hlr htm)
              rw [hrest] at this
              exact this
            · rw [if_neg h3] at htm
              by_cases h4 : "\x7bCONTEXT\x7d".toList.isPrefixOf (c :: s) = true
              · rw [if_pos h4] at htm
                obtain ⟨rest, hrest⟩ := List.isPrefixOf_iff_prefix.mp h4
                have hdrop : (c :: s).drop "\x7bCONTEXT\x7d".toList.length = rest := by
                  rw [← hrest, List.drop_left]
                rw [hdrop] at htm
                have hlr : rest.length ≤ g := by
                  have := congrArg List.length hrest
                  have hpos : 0 < ("\x7bCONTEXT\x7d" : String).toList.length := by decide
                  simp only [List.length_append, List.length_cons] at this hlen
                  omega
                have := Mix.tok "\x7bCONTEXT\x7d".toList rest (by simp [promptTokens])
                  (ih rest hlr htm)
                rw [hrest] at this
                exact this
              · rw [if_neg h4] at htm
                cases htm

/-- `pyReplace` computes the character-level scanner. -/
theorem pyReplace_toList (s pat rep : String) (p : Char) (ps : List Char)
    (hpat : pat.toList = p :: ps) :
    (pyReplace s pat rep).toList =
      replCharsF p ps rep.toList s.toList.length s.toList := by
  unfold pyReplace
  rw [hpat]
  rfl

/-- String-level form of one substitution pass. -/
theorem mix_replace_str (S : List (List Char)) (s pat rep : String) (ps : List Char)
    (hpat : pat.toList = lbrace :: ps)
    (hps : ps ≠ [] ∧ lbrace ∉ ps)
    (hS : ∀ T' ∈ S, tokOK T' = true)
    (hsep : ∀ T' ∈ S, T' ≠ lbrace :: ps → T'.get? 1 ≠ (lbrace :: ps).get? 1)
    (hrep : ∀ ch ∈ rep.toList, ch ≠ lbrace)
    (hmix : Mix S s.toList) :
    Mix (S.filter (fun T' => T' ≠ lbrace :: ps)) (pyReplace s pat rep).toList := by
  rw [pyReplace_toList s pat rep lbrace ps hpat]
  exact mix_replace hps hS hsep hrep s.toList hmix _ le_rfl

/-- C9 (amended): with a non-empty custom template in which every left
brace begins one of the four placeholder spellings, and query/context
values containing no left brace, the builder substitutes the values for
the placeholders (sequentially: query, context, User-Query alias,
CONTEXT alias) and no literal placeholder spelling remains in the
produced text; without the guard a substitution seam can re-create a
spelling (see the counterexample).  With no custom template, the default
text is the context section, the optional web-search section, the query
line, and the fixed trailing instruction sentence. -/
theorem custom_template_substitution :
    (∀ (custom q c w : String),
      custom ≠ "" →
      templOK custom.toList = true →
      lbrace ∉ q.toList → lbrace ∉ c.toList →
      ∀ T ∈ promptTokens, ¬ Occurs T (build_prompt custom q c w).toList)
    ∧ (∀ (q c w : String),
      build_prompt "" q c w =
        (if c ≠ "" then "Context from documents:\n" ++ c ++ "\n" ++ "\n" else "") ++
        (if w ≠ "" then "Web search results:\n" ++ w ++ "\n" ++ "\n" else "") ++
        ("User query: " ++ q ++ "\n" ++ "\n") ++
        "Please provide a helpful response based on the above information.") := by
  constructor
  · intro custom q c w hne htm hq hc T hT
    have hbp : build_prompt custom q c w =
        pyReplace (pyReplace (pyReplace (pyReplace custom "\x7bquery\x7d" q)
          "\x7bcontext\x7d" c) "\x7bUser Query\x7d" q) "\x7bCONTEXT\x7d" c := by
      simp [build_prompt, hne]
    have hqf : ∀ ch ∈ q.toList, ch ≠ lbrace := fun ch hch he => hq (he ▸ hch)
    have hcf : ∀ ch ∈ c.toList, ch ≠ lbrace := fun ch hch he => hc (he ▸ hch)
    have hm0 : Mix promptTokens custom.toList := templOK_mix _ _ le_rfl htm
    have hm1 := mix_replace_str promptTokens custom "\x7bquery\x7d" q
      "query\x7d".toList (by decide) ⟨by decide, by decide⟩ (by decide) (by decide)
      hqf hm0
    rw [show promptTokens.filter (fun T' => T' ≠ lbrace :: "query\x7d".toList) =
      ["\x7bcontext\x7d".toList, "\x7bUser Query\x7d".toList, "\x7bCONTEXT\x7d".toList]
      from by decide] at hm1
    have hm2 := mix_replace_str _ (pyReplace custom "\x7bquery\x7d" q)
      "\x7bcontext\x7d" c "context\x7d".toList (by decide) ⟨by decide, by decide⟩
      (by decide) (by decide) hcf hm1
    rw [show (["\x7bcontext\x7d".toList, "\x7bUser Query\x7d".toList,
        "\x7bCONTEXT\x7d".toList]).filter
        (fun T' => T' ≠ lbrace :: "context\x7d".toList) =
      ["\x7bUser Query\x7d".toList, "\x7bCONTEXT\x7d".toList] from by decide] at hm2
    have hm3 := mix_replace_str _
      (pyReplace (pyReplace custom "\x7bquery\x7d" q) "\x7bcontext\x7d" c)
      "\x7bUser Query\x7d" q "User Query\x7d".toList (by decide)
      ⟨by decide, by decide⟩ (by decide) (by decide) hqf hm2
    rw [show (["\x7bUser Query\x7d".toList, "\x7bCONTEXT\x7d".toList]).filter
        (fun T' => T' ≠ lbrace :: "User Query\x7d".toList) =
      ["\x7bCONTEXT\x7d".toList] from by decide] at hm3
    have hm4 := mix_replace_str _
      (pyReplace (pyReplace (pyReplace custom "\x7bquery\x7d" q) "\x7bcontext\x7d" c)
        "\x7bUser Query\x7d" q)
      "\x7bCONTEXT\x7d" c "CONTEXT\x7d".toList (by decide)
      ⟨by decide, by decide⟩ (by decide) (by decide) hcf hm3
    rw [show (["\x7bCONTEXT\x7d".toList]).filter
        (fun T' => T' ≠ lbrace :: "CONTEXT\x7d".toList) =
      ([] : List (List Char)) from by decide] at hm4
    rw [hbp]
    have hTl : lbrace ∈ T := by
      have hall : ∀ T' ∈ promptTokens, lbrace ∈ T' := by decide
      exact hall T hT
    exact not_occurs_of_brace_free hTl (mix_nil_brace_free hm4)
  · intro q c w
    by_cases hc : c ≠ ""
    · by_cases hw : w ≠ ""
      · have h4 : ∀ a b c' d : String,
            String.intercalate "\n" [a, b, c', d] =
              a ++ "\n" ++ b ++ "\n" ++ c' ++ "\n" ++ d := fun _ _ _ _ => rfl
        simp [build_prompt, hc, hw, h4, String.append_assoc]
      · have h3 : ∀ a b c' : String,
            String.intercalate "\n" [a, b, c'] = a ++ "\n" ++ b ++ "\n" ++ c' :=
          fun _ _ _ => rfl
        simp [build_prompt, hc, hw, h3, String.append_assoc]
    · by_cases hw : w ≠ ""
      · have h3 : ∀ a b c' : String,
            String.intercalate "\n" [a, b, c'] = a ++ "\n" ++ b ++ "\n" ++ c' :=
          fun _ _ _ => rfl
        simp [build_prompt, hc, hw, h3, String.append_assoc]
      · have h2 : ∀ a b : String,
            String.intercalate "\n" [a, b] = a ++ "\n" ++ b := fun _ _ => rfl
        simp [build_prompt, hc, hw, h2, String.append_assoc]

/-- Witness for C9 (amended): a guarded template with both alias
spellings, and the default template with all sections present. -/
theorem custom_template_substitution_witness :
    (∀ T ∈ promptTokens,
      ¬ Occurs T (build_prompt "Q: \x7bquery\x7d C: \x7bCONTEXT\x7d" "q1" "c1" "").toList)
    ∧ build_prompt "" "q1" "c1" "w1" =
        (if ("c1" : String) ≠ "" then "Context from documents:\n" ++ "c1" ++ "\n" ++ "\n" else "") ++
        (if ("w1" : String) ≠ "" then "Web search results:\n" ++ "w1" ++ "\n" ++ "\n" else "") ++
        ("User query: " ++ "q1" ++ "\n" ++ "\n") ++
        "Please provide a helpful response based on the above information." :=
  ⟨custom_template_substitution.1 "Q: \x7bquery\x7d C: \x7bCONTEXT\x7d" "q1" "c1" ""
      (by decide) (by decide) (by decide) (by decide),
   custom_template_substitution.2 "q1" "c1" "w1"⟩

end PlanetAI
